import Mathlib

/-! Shallow embedding of the marine route optimisation application (app.py):
graph construction from polyline geometry, nearest-node snapping, the three
shortest-path engines (Dijkstra, A-star, Bellman-Ford), the comparator and
the two request handlers.  Coordinates are pairs of rationals.  The code
stores Euclidean distances; this embedding stores their squares, an
order-faithful encoding that keeps every definition executable, and theorem
statements relate them to true Euclidean distances through Real.sqrt. -/

namespace MarineRoute

/-- A vertex is a (longitude, latitude) coordinate pair, exactly as in the
networkx graph whose nodes are coordinate tuples. -/
abbrev Coord : Type := ℚ × ℚ

/-- Squared Euclidean distance between two coordinates.  The code compares
Euclidean distances Point(a).distance(Point(b)); squaring preserves both
the order and all ties, since Real.sqrt is strictly monotone. -/
def sqDist (a b : Coord) : ℚ := (a.1 - b.1) ^ 2 + (a.2 - b.2) ^ 2

/-- An edge record (u, v, weight) as inserted by G.add_edge(u, v, weight=w).
For edges built by the geometry ingestor the stored rational is the squared
Euclidean distance between the endpoints (see geojson_to_graph). -/
abbrev Edge : Type := Coord × Coord × ℚ

/-- Whether an edge record connects u and v, in either orientation
(nx.Graph is undirected). -/
def connects (u v : Coord) (e : Edge) : Prop :=
  (e.1 = u ∧ e.2.1 = v) ∨ (e.1 = v ∧ e.2.1 = u)

instance (u v : Coord) (e : Edge) : Decidable (connects u v e) := by
  unfold connects; infer_instance

/-- Effective weight of the undirected edge between u and v: the last
matching insertion wins, mirroring nx.Graph.add_edge overwriting the
weight attribute of an already existing edge. -/
def weightOf (es : List Edge) (u v : Coord) : Option ℚ :=
  match (es.filter (fun e => decide (connects u v e))).getLast? with
  | none => none
  | some e => some e.2.2

/-- Append a node if it is not already present (networkx keeps nodes in
first-insertion order). -/
def addNode (l : List Coord) (x : Coord) : List Coord :=
  if x ∈ l then l else l ++ [x]

/-- The node list of the graph built from the edge records, in
first-insertion order, deduplicated (G.add_edge inserts both endpoints). -/
def nodesOf (es : List Edge) : List Coord :=
  es.foldl (fun acc e => addNode (addNode acc e.1) e.2.1) []

/-- Neighbours of u, in adjacency insertion order. -/
def neighbors (es : List Edge) (u : Coord) : List Coord :=
  es.foldl (fun acc e =>
    if e.1 = u then addNode acc e.2.1
    else if e.2.1 = u then addNode acc e.1
    else acc) []

section BasicLemmas

theorem mem_addNode {l : List Coord} {x y : Coord} :
    y ∈ addNode l x ↔ y ∈ l ∨ y = x := by
  unfold addNode
  split
  · rename_i hx
    constructor
    · exact Or.inl
    · rintro (h | rfl)
      · exact h
      · exact hx
  · simp [or_comm]

theorem mem_addNode_of_mem {l : List Coord} {x y : Coord} (h : y ∈ l) :
    y ∈ addNode l x := mem_addNode.mpr (Or.inl h)

theorem self_mem_addNode (l : List Coord) (x : Coord) : x ∈ addNode l x :=
  mem_addNode.mpr (Or.inr rfl)

/-- Generic membership description for an accumulating fold over edges whose
step function adds a set of coordinates described by P. -/
theorem foldl_step_mem (g : List Coord → Edge → List Coord) (P : Edge → Coord → Prop)
    (x : Coord) (hg : ∀ acc e, x ∈ g acc e ↔ x ∈ acc ∨ P e x) :
    ∀ (l : List Edge) (acc : List Coord),
      x ∈ l.foldl g acc ↔ x ∈ acc ∨ ∃ e ∈ l, P e x := by
  intro l
  induction l with
  | nil => simp
  | cons e t ih =>
    intro acc
    rw [List.foldl_cons, ih, hg, List.exists_mem_cons_iff]
    tauto

/-- Characterisation of graph-node membership. -/
theorem mem_nodesOf {es : List Edge} {x : Coord} :
    x ∈ nodesOf es ↔ ∃ e ∈ es, x = e.1 ∨ x = e.2.1 := by
  have h := foldl_step_mem (fun acc e => addNode (addNode acc e.1) e.2.1)
    (fun e x => x = e.1 ∨ x = e.2.1) x ?_ es []
  · simpa [nodesOf] using h
  · intro acc e
    simp only [mem_addNode]
    tauto

/-- Characterisation of neighbourhood membership. -/
theorem mem_neighbors {es : List Edge} {u v : Coord} :
    v ∈ neighbors es u ↔ ∃ e ∈ es, connects u v e := by
  have h := foldl_step_mem
    (fun acc e =>
      if e.1 = u then addNode acc e.2.1
      else if e.2.1 = u then addNode acc e.1
      else acc)
    (fun e v => connects u v e) v ?_ es []
  · simpa [neighbors] using h
  · intro acc e
    by_cases h1 : e.1 = u
    · simp only [if_pos h1, mem_addNode]
      constructor
      · rintro (h | rfl)
        · exact Or.inl h
        · exact Or.inr (Or.inl ⟨h1, rfl⟩)
      · rintro (h | (⟨_, h2⟩ | ⟨hv, h2⟩))
        · exact Or.inl h
        · exact Or.inr h2.symm
        · exact Or.inr (by rw [h2, ← h1, hv])
    · by_cases h2 : e.2.1 = u
      · simp only [if_neg h1, if_pos h2, mem_addNode]
        constructor
        · rintro (h | rfl)
          · exact Or.inl h
          · exact Or.inr (Or.inr ⟨rfl, h2⟩)
        · rintro (h | (⟨hu, _⟩ | ⟨hv, _⟩))
          · exact Or.inl h
          · exact absurd hu h1
          · exact Or.inr hv.symm
      · simp only [if_neg h1, if_neg h2]
        constructor
        · exact Or.inl
        · rintro (h | (⟨hu, _⟩ | ⟨_, hu⟩))
          · exact h
          · exact absurd hu h1
          · exact absurd hu h2

theorem weightOf_comm (es : List Edge) (u v : Coord) :
    weightOf es u v = weightOf es v u := by
  unfold weightOf
  have : ∀ e : Edge, decide (connects u v e) = decide (connects v u e) := by
    intro e
    simp only [decide_eq_decide]
    unfold connects
    tauto
  rw [List.filter_congr (fun e _ => this e)]

/-- If there is an effective edge between u and v then some inserted record
connects them. -/
theorem weightOf_isSome_iff {es : List Edge} {u v : Coord} :
    (weightOf es u v).isSome ↔ ∃ e ∈ es, connects u v e := by
  unfold weightOf
  cases hl : (es.filter (fun e => decide (connects u v e))).getLast? with
  | none =>
    simp only [Option.isSome_none, Bool.false_eq_true, false_iff]
    rintro ⟨e, he, hc⟩
    rw [List.getLast?_eq_none_iff] at hl
    have : e ∈ es.filter (fun e => decide (connects u v e)) :=
      List.mem_filter.mpr ⟨he, decide_eq_true hc⟩
    rw [hl] at this
    exact absurd this (List.not_mem_nil e)
  | some e =>
    simp only [Option.isSome_some, true_iff]
    have he : e ∈ es.filter (fun e => decide (connects u v e)) := by
      obtain ⟨hne, heq⟩ := List.mem_getLast?_eq_getLast hl
      rw [heq]
      exact List.getLast_mem hne
    rw [List.mem_filter] at he
    exact ⟨e, he.1, of_decide_eq_true he.2⟩

/-- Edge endpoints are graph nodes. -/
theorem left_mem_nodesOf_of_weightOf {es : List Edge} {u v : Coord}
    (h : (weightOf es u v).isSome) : u ∈ nodesOf es := by
  obtain ⟨e, he, hc⟩ := weightOf_isSome_iff.mp h
  rcases hc with ⟨h1, _⟩ | ⟨_, h2⟩
  · exact mem_nodesOf.mpr ⟨e, he, Or.inl h1.symm⟩
  · exact mem_nodesOf.mpr ⟨e, he, Or.inr h2.symm⟩

theorem right_mem_nodesOf_of_weightOf {es : List Edge} {u v : Coord}
    (h : (weightOf es u v).isSome) : v ∈ nodesOf es := by
  rw [weightOf_comm] at h
  exact left_mem_nodesOf_of_weightOf h

/-- A neighbour relation holds exactly when the effective weight exists. -/
theorem mem_neighbors_iff_weightOf {es : List Edge} {u v : Coord} :
    v ∈ neighbors es u ↔ (weightOf es u v).isSome := by
  rw [mem_neighbors, weightOf_isSome_iff]

end BasicLemmas

/-! ## The nearest-vertex resolver (snap_to_nearest_node) -/

/-- Python min(iterable, key=f): a left fold keeping the first element seen
whose key is strictly smaller than the current best, hence the first
minimiser in enumeration order wins all ties.  Returns none on an empty
iterable (Python raises ValueError there). -/
def minByFirst (f : Coord → ℚ) : List Coord → Option Coord
  | [] => none
  | x :: xs => some (xs.foldl (fun best y => if f y < f best then y else best) x)

/-- snap_to_nearest_node(graph, coord): the graph node minimising the
Euclidean distance to coord.  Squared distances compare identically. -/
def snap_to_nearest_node (nodes : List Coord) (coord : Coord) : Option Coord :=
  minByFirst (fun x => sqDist x coord) nodes

section MinByFirst

variable {f : Coord → ℚ}

theorem foldl_min_mem (l : List Coord) (best : Coord) :
    l.foldl (fun b y => if f y < f b then y else b) best ∈ best :: l := by
  induction l generalizing best with
  | nil => simp
  | cons y ys ih =>
    rw [List.foldl_cons]
    rcases List.mem_cons.mp (ih (if f y < f best then y else best)) with h | h
    · rw [h]
      split
      · simp
      · simp
    · simp [h]

theorem foldl_min_le (l : List Coord) (best : Coord) :
    f (l.foldl (fun b y => if f y < f b then y else b) best) ≤ f best ∧
      ∀ y ∈ l, f (l.foldl (fun b y => if f y < f b then y else b) best) ≤ f y := by
  induction l generalizing best with
  | nil => simp
  | cons y ys ih =>
    rw [List.foldl_cons]
    obtain ⟨ih1, ih2⟩ := ih (if f y < f best then y else best)
    by_cases h : f y < f best
    · rw [if_pos h] at ih1 ih2 ⊢
      refine ⟨le_trans ih1 (le_of_lt h), ?_⟩
      intro z hz
      rcases List.mem_cons.mp hz with rfl | hz
      · exact ih1
      · exact ih2 z hz
    · rw [if_neg h] at ih1 ih2 ⊢
      refine ⟨ih1, ?_⟩
      intro z hz
      rcases List.mem_cons.mp hz with rfl | hz
      · exact le_trans ih1 (not_lt.mp h)
      · exact ih2 z hz

/-- The fold keeps the first minimiser: either the initial best survives, or
the result occurs in the list strictly below the initial best and strictly
below everything before its position. -/
theorem foldl_min_first (l : List Coord) (best r : Coord)
    (hr : l.foldl (fun b y => if f y < f b then y else b) best = r) :
    r = best ∨
      ∃ pre post, l = pre ++ r :: post ∧ f r < f best ∧ ∀ y ∈ pre, f r < f y := by
  induction l generalizing best with
  | nil => exact Or.inl hr.symm
  | cons y ys ih =>
    rw [List.foldl_cons] at hr
    by_cases h : f y < f best
    · rw [if_pos h] at hr
      rcases ih y hr with heq | ⟨pre, post, hsplit, hlt, hpre⟩
      · subst heq
        exact Or.inr ⟨[], ys, rfl, h, by simp⟩
      · refine Or.inr ⟨y :: pre, post, by rw [hsplit, List.cons_append], lt_trans hlt h, ?_⟩
        intro z hz
        rcases List.mem_cons.mp hz with rfl | hz
        · exact hlt
        · exact hpre z hz
    · rw [if_neg h] at hr
      rcases ih best hr with heq | ⟨pre, post, hsplit, hlt, hpre⟩
      · exact Or.inl heq
      · refine Or.inr ⟨y :: pre, post, by rw [hsplit, List.cons_append], hlt, ?_⟩
        intro z hz
        rcases List.mem_cons.mp hz with rfl | hz
        · exact lt_of_lt_of_le hlt (not_lt.mp h)
        · exact hpre z hz

theorem minByFirst_eq_none_iff {l : List Coord} : minByFirst f l = none ↔ l = [] := by
  cases l <;> simp [minByFirst]

theorem minByFirst_mem {l : List Coord} {r : Coord} (h : minByFirst f l = some r) :
    r ∈ l := by
  cases l with
  | nil => simp [minByFirst] at h
  | cons x xs =>
    simp only [minByFirst, Option.some.injEq] at h
    subst h
    exact foldl_min_mem xs x

theorem minByFirst_le {l : List Coord} {r : Coord} (h : minByFirst f l = some r) :
    ∀ y ∈ l, f r ≤ f y := by
  cases l with
  | nil => simp [minByFirst] at h
  | cons x xs =>
    simp only [minByFirst, Option.some.injEq] at h
    subst h
    intro y hy
    rcases List.mem_cons.mp hy with rfl | hy
    · exact (foldl_min_le xs y).1
    · exact (foldl_min_le xs x).2 y hy

theorem minByFirst_first {l : List Coord} {r : Coord} (h : minByFirst f l = some r) :
    ∃ pre post, l = pre ++ r :: post ∧ ∀ y ∈ pre, f r < f y := by
  cases l with
  | nil => simp [minByFirst] at h
  | cons x xs =>
    simp only [minByFirst, Option.some.injEq] at h
    rcases foldl_min_first xs x r h with heq | ⟨pre, post, hsplit, hlt, hpre⟩
    · subst heq
      exact ⟨[], xs, rfl, by simp⟩
    · refine ⟨x :: pre, post, by rw [hsplit, List.cons_append], ?_⟩
      intro z hz
      rcases List.mem_cons.mp hz with rfl | hz
      · exact hlt
      · exact hpre z hz

end MinByFirst

/-! ## Walks and path costs -/

/-- All stored edge weights are nonnegative. -/
def NonnegWeights (es : List Edge) : Prop := ∀ e ∈ es, 0 ≤ e.2.2

/-- Sum of effective edge weights along a vertex sequence; none when two
consecutive vertices are not joined by an edge.  This is the "sum of edge
weights along the path" used by the spec to define a path cost. -/
def pathWeight (es : List Edge) : List Coord → Option ℚ
  | [] => some 0
  | [_] => some 0
  | a :: b :: rest =>
    match weightOf es a b, pathWeight es (b :: rest) with
    | some w, some c => some (w + c)
    | _, _ => none

/-- A walk from s to t along effective edges, carrying its vertex sequence
and its total cost. -/
inductive WalkFrom (es : List Edge) : Coord → Coord → List Coord → ℚ → Prop
  | single (u : Coord) : WalkFrom es u u [u] 0
  | cons {u v t : Coord} {p : List Coord} {c w : ℚ} :
      weightOf es u v = some w → WalkFrom es v t p c →
      WalkFrom es u t (u :: p) (w + c)

theorem weightOf_nonneg {es : List Edge} (hnn : NonnegWeights es) {u v : Coord} {w : ℚ}
    (h : weightOf es u v = some w) : 0 ≤ w := by
  unfold weightOf at h
  cases hl : (es.filter (fun e => decide (connects u v e))).getLast? with
  | none => rw [hl] at h; exact absurd h (by simp)
  | some e =>
    rw [hl] at h
    have he : e ∈ es.filter (fun e => decide (connects u v e)) := by
      obtain ⟨hne, heq⟩ := List.mem_getLast?_eq_getLast hl
      rw [heq]
      exact List.getLast_mem hne
    rw [List.mem_filter] at he
    have := hnn e he.1
    simp only [Option.some.injEq] at h
    rw [← h]
    exact this

theorem WalkFrom.ne_nil {es : List Edge} {s t : Coord} {p : List Coord} {c : ℚ}
    (h : WalkFrom es s t p c) : p ≠ [] := by
  cases h <;> simp

theorem WalkFrom.head_eq {es : List Edge} {s t : Coord} {p : List Coord} {c : ℚ}
    (h : WalkFrom es s t p c) : p.head? = some s := by
  cases h <;> rfl

theorem WalkFrom.last_eq {es : List Edge} {s t : Coord} {p : List Coord} {c : ℚ}
    (h : WalkFrom es s t p c) : p.getLast? = some t := by
  induction h with
  | single u => rfl
  | cons hw hwalk ih =>
    rename_i u v t' p' c' w'
    cases p' with
    | nil => exact absurd rfl hwalk.ne_nil
    | cons a l =>
      rw [List.getLast?_cons_cons]
      exact ih

theorem WalkFrom.cost_nonneg {es : List Edge} (hnn : NonnegWeights es)
    {s t : Coord} {p : List Coord} {c : ℚ} (h : WalkFrom es s t p c) : 0 ≤ c := by
  induction h with
  | single u => exact le_refl 0
  | cons hw hwalk ih =>
    have := weightOf_nonneg hnn hw
    linarith

/-- Every vertex of a walk is the source or a graph node (and every vertex
other than the head is a graph node). -/
theorem WalkFrom.mem_nodes {es : List Edge} {s t : Coord} {p : List Coord} {c : ℚ}
    (h : WalkFrom es s t p c) : ∀ x ∈ p, x = s ∨ x ∈ nodesOf es := by
  induction h with
  | single u => intro x hx; simp at hx; exact Or.inl hx
  | cons hw hwalk ih =>
    intro x hx
    rcases List.mem_cons.mp hx with rfl | hx
    · exact Or.inl rfl
    · rcases ih x hx with rfl | hmem
      · exact Or.inr (right_mem_nodesOf_of_weightOf (by rw [hw]; rfl))
      · exact Or.inr hmem

theorem WalkFrom.pathWeight_eq {es : List Edge} {s t : Coord} {p : List Coord} {c : ℚ}
    (h : WalkFrom es s t p c) : pathWeight es p = some c := by
  induction h with
  | single u => rfl
  | cons hw hwalk ih =>
    rename_i u v t' p' c' w'
    cases p' with
    | nil => exact absurd rfl hwalk.ne_nil
    | cons a l =>
      have hhead : a = v := by simpa using hwalk.head_eq
      subst hhead
      simp only [pathWeight, hw, ih]

/-- Conversely, a vertex sequence with defined pathWeight and matching
endpoints is a walk. -/
theorem walkFrom_of_pathWeight {es : List Edge} :
    ∀ {p : List Coord} {s t : Coord} {c : ℚ}, p.head? = some s → p.getLast? = some t →
      pathWeight es p = some c → WalkFrom es s t p c
  | [], _, _, _, hh, _, _ => by simp at hh
  | [a], s, t, c, hh, hl, hw => by
    have h1 : a = s := by simpa using hh
    have h2 : a = t := by simpa using hl
    have h3 : (0 : ℚ) = c := by simpa [pathWeight] using hw
    rw [← h1, ← h2, ← h3]
    exact WalkFrom.single a
  | a :: b :: rest, s, t, c, hh, hl, hw => by
    have h1 : a = s := by simpa using hh
    have hl2 : (b :: rest).getLast? = some t := by
      rw [List.getLast?_cons_cons] at hl
      exact hl
    simp only [pathWeight] at hw
    cases hab : weightOf es a b with
    | none => rw [hab] at hw; simp at hw
    | some w =>
      rw [hab] at hw
      cases hpw : pathWeight es (b :: rest) with
      | none => rw [hpw] at hw; simp at hw
      | some c2 =>
        rw [hpw] at hw
        simp only [Option.some.injEq] at hw
        have hwalk := walkFrom_of_pathWeight (p := b :: rest) (s := b) (t := t) rfl hl2 hpw
        rw [← h1, ← hw]
        exact WalkFrom.cons hab hwalk

/-- Extending a walk with one more edge at the end. -/
theorem WalkFrom.snoc {es : List Edge} {s u v : Coord} {p : List Coord} {c w : ℚ}
    (h : WalkFrom es s u p c) (hw : weightOf es u v = some w) :
    WalkFrom es s v (p ++ [v]) (c + w) := by
  induction h with
  | single a =>
    have : (0 : ℚ) + w = w + 0 := by ring
    rw [this]
    exact WalkFrom.cons hw (WalkFrom.single v)
  | cons he hwalk ih =>
    rename_i a b t' p' c' w'
    have : w' + c' + w = w' + (c' + w) := by ring
    rw [this, List.cons_append]
    exact WalkFrom.cons he (ih hw)

/-- Destructuring a walk at its final edge. -/
theorem WalkFrom.snoc_cases {es : List Edge} {s t : Coord} {p : List Coord} {c : ℚ}
    (h : WalkFrom es s t p c) :
    (p = [s] ∧ s = t ∧ c = 0) ∨
      ∃ a q c1 w, p = q ++ [t] ∧ WalkFrom es s a q c1 ∧
        weightOf es a t = some w ∧ c = c1 + w := by
  induction h with
  | single u => exact Or.inl ⟨rfl, rfl, rfl⟩
  | cons he hwalk ih =>
    rename_i u v t' p' c' w'
    rcases ih with ⟨hp, hvt, hc⟩ | ⟨a, q, c1, w, hp, hq, hw, hc⟩
    · subst hp; subst hvt; subst hc
      refine Or.inr ⟨u, [u], 0, w', rfl, WalkFrom.single u, he, by ring⟩
    · subst hp; subst hc
      refine Or.inr ⟨a, u :: q, w' + c1, w, by rw [List.cons_append],
        WalkFrom.cons he hq, hw, by ring⟩

/-- Inversion for a walk on a cons cell. -/
theorem WalkFrom.cons_cases {es : List Edge} {s t a : Coord} {l : List Coord} {c : ℚ}
    (h : WalkFrom es s t (a :: l) c) :
    a = s ∧ ((l = [] ∧ s = t ∧ c = 0) ∨
      ∃ v w c2, weightOf es s v = some w ∧ WalkFrom es v t l c2 ∧ c = w + c2 ∧
        l.head? = some v) := by
  cases h with
  | single u => exact ⟨rfl, Or.inl ⟨rfl, rfl, rfl⟩⟩
  | cons he hwalk =>
    rename_i v cin w
    exact ⟨rfl, Or.inr ⟨v, w, cin, he, hwalk, rfl, hwalk.head_eq⟩⟩

/-- Splitting a walk at an interior occurrence of a vertex. -/
theorem WalkFrom.split {es : List Edge} {x : Coord} :
    ∀ (p1 p2 : List Coord) {s t : Coord} {c : ℚ}, WalkFrom es s t (p1 ++ x :: p2) c →
      ∃ c1 c2, WalkFrom es s x (p1 ++ [x]) c1 ∧ WalkFrom es x t (x :: p2) c2 ∧ c = c1 + c2
  | [], p2, s, t, c, h => by
    have hs : x = s := by simpa using h.head_eq
    subst hs
    exact ⟨0, c, WalkFrom.single x, h, by ring⟩
  | a :: p1, p2, s, t, c, h => by
    rw [List.cons_append] at h
    obtain ⟨ha, hrest⟩ := h.cons_cases
    rcases hrest with ⟨hnil, _, _⟩ | ⟨v, w, cin, he, hwalk, hc, _⟩
    · exact absurd hnil (by simp)
    · obtain ⟨c1, c2, h1, h2, hin⟩ := WalkFrom.split p1 p2 hwalk
      subst ha
      refine ⟨w + c1, c2, ?_, h2, by rw [hc, hin]; ring⟩
      rw [List.cons_append]
      exact WalkFrom.cons he h1

/-- Joining two walks at a shared vertex. -/
theorem WalkFrom.join {es : List Edge} {x : Coord} :
    ∀ (p1 : List Coord) {s : Coord} {c1 : ℚ} (p2 : List Coord) {t : Coord} {c2 : ℚ},
      WalkFrom es s x (p1 ++ [x]) c1 → WalkFrom es x t (x :: p2) c2 →
      WalkFrom es s t (p1 ++ x :: p2) (c1 + c2)
  | [], s, c1, p2, t, c2, h1, h2 => by
    obtain ⟨hax, hrest⟩ := h1.cons_cases
    rcases hrest with ⟨_, hsx, hc⟩ | ⟨v, w, cmid, _, hwalk, _, _⟩
    · rw [List.nil_append, hc, zero_add, hsx]
      exact h2
    · exact absurd rfl hwalk.ne_nil
  | a :: p1, s, c1, p2, t, c2, h1, h2 => by
    rw [List.cons_append] at h1
    obtain ⟨ha, hrest⟩ := h1.cons_cases
    rcases hrest with ⟨hnil, _, _⟩ | ⟨v, w, cin, he, hwalk, hc, _⟩
    · exact absurd hnil (by simp)
    · subst ha
      have hjoin := WalkFrom.join p1 p2 hwalk h2
      rw [List.cons_append, hc]
      have harith : w + cin + c2 = w + (cin + c2) := by ring
      rw [harith]
      exact WalkFrom.cons he hjoin

/-- A list that is not duplicate-free splits around a repeated element. -/
theorem exists_dup_decomp {l : List Coord} (h : ¬ l.Nodup) :
    ∃ xs x ys zs, l = xs ++ x :: (ys ++ x :: zs) := by
  induction l with
  | nil => exact absurd List.nodup_nil h
  | cons a t ih =>
    by_cases ha : a ∈ t
    · obtain ⟨s, r, hts⟩ := List.append_of_mem ha
      subst hts
      exact ⟨[], a, s, r, by simp⟩
    · have hnd : ¬ t.Nodup := by
        intro hnd
        exact h (List.nodup_cons.mpr ⟨ha, hnd⟩)
      obtain ⟨xs, x, ys, zs, hts⟩ := ih hnd
      subst hts
      exact ⟨a :: xs, x, ys, zs, rfl⟩

/-- Cycle removal: with nonnegative weights, every walk admits a
duplicate-free walk with the same endpoints, no greater cost and no greater
length. -/
theorem WalkFrom.shorten {es : List Edge} (hnn : NonnegWeights es) :
    ∀ (n : ℕ) {p : List Coord} {s t : Coord} {c : ℚ}, p.length ≤ n →
      WalkFrom es s t p c →
      ∃ q c2, WalkFrom es s t q c2 ∧ c2 ≤ c ∧ q.length ≤ p.length ∧ q.Nodup := by
  intro n
  induction n with
  | zero =>
    intro p s t c hlen h
    cases p with
    | nil => exact absurd rfl h.ne_nil
    | cons a l => simp at hlen
  | succ n ih =>
    intro p s t c hlen h
    by_cases hnd : p.Nodup
    · exact ⟨p, c, h, le_refl c, le_refl _, hnd⟩
    · obtain ⟨xs, x, ys, zs, hdecomp⟩ := exists_dup_decomp hnd
      subst hdecomp
      obtain ⟨c1, crest, h1, h2, hc⟩ := WalkFrom.split xs (ys ++ x :: zs) h
      have h2b : WalkFrom es x t ((x :: ys) ++ x :: zs) crest := by
        rw [List.cons_append]
        exact h2
      obtain ⟨cmid, c4, h3, h4, hc2⟩ := WalkFrom.split (x :: ys) zs h2b
      have hmid : 0 ≤ cmid := h3.cost_nonneg hnn
      have hjoin := WalkFrom.join xs zs h1 h4
      have hlen2 : (xs ++ x :: zs).length ≤ n := by
        simp only [List.length_append, List.length_cons] at hlen ⊢
        omega
      obtain ⟨q, c2, hq, hle, hqlen, hqnd⟩ := ih hlen2 hjoin
      refine ⟨q, c2, hq, by linarith, ?_, hqnd⟩
      calc q.length ≤ (xs ++ x :: zs).length := hqlen
        _ ≤ (xs ++ x :: (ys ++ x :: zs)).length := by
            simp only [List.length_append, List.length_cons]
            omega

/-- A duplicate-free walk from a graph node visits at most every node. -/
theorem WalkFrom.nodup_length_le {es : List Edge} {s t : Coord} {p : List Coord} {c : ℚ}
    (h : WalkFrom es s t p c) (hs : s ∈ nodesOf es) (hnd : p.Nodup) :
    p.length ≤ (nodesOf es).length := by
  have hsub : p ⊆ nodesOf es := by
    intro x hx
    rcases h.mem_nodes x hx with rfl | hmem
    · exact hs
    · exact hmem
  exact (List.Nodup.subperm hnd hsub).length_le

/-- With nonnegative weights, any walk cost is matched or beaten by a walk
with at most one vertex per graph node. -/
theorem WalkFrom.bounded_exists {es : List Edge} (hnn : NonnegWeights es)
    {s t : Coord} {p : List Coord} {c : ℚ} (h : WalkFrom es s t p c)
    (hs : s ∈ nodesOf es) :
    ∃ q c2, WalkFrom es s t q c2 ∧ c2 ≤ c ∧ q.length ≤ (nodesOf es).length := by
  obtain ⟨q, c2, hq, hle, _, hqnd⟩ := WalkFrom.shorten hnn p.length (le_refl _) h
  exact ⟨q, c2, hq, hle, hq.nodup_length_le hs hqnd⟩

theorem sqDist_nonneg (a b : Coord) : 0 ≤ sqDist a b := by
  unfold sqDist
  positivity

/-! ## The Dijkstra engine

nx.shortest_path(G, source, target, weight="weight") runs Dijkstra.  The
model below is the standard settle-the-minimum formulation of that
algorithm (the heap with lazy deletion settles nodes in the same order of
tentative distance); each label carries the cost and the full vertex
sequence from the source, so the returned value is the node list exactly
as networkx returns it. -/

/-- Tentative labelling: cost and vertex sequence from the source. -/
abbrev DistMap : Type := Coord → Option (ℚ × List Coord)

def updateMap (d : DistMap) (v : Coord) (x : ℚ × List Coord) : DistMap :=
  fun y => if y = v then some x else d y

/-- The first unsettled node carrying the smallest tentative distance. -/
def pickMin (d : DistMap) : List Coord → Option (Coord × ℚ × List Coord)
  | [] => none
  | u :: us =>
    match d u, pickMin d us with
    | none, r => r
    | some cp, none => some (u, cp)
    | some cp, some r => if r.2.1 < cp.1 then some r else some (u, cp)

/-- New label of v when relaxing through an edge of weight w from a node
with label (du, pu): keep the old label unless the new cost strictly
improves it. -/
def relaxVal (du w : ℚ) (pu : List Coord) (v : Coord)
    (old : Option (ℚ × List Coord)) : ℚ × List Coord :=
  old.elim (du + w, pu ++ [v])
    (fun dv => if du + w < dv.1 then (du + w, pu ++ [v]) else dv)

/-- Relax the edge from u (cost du, path pu) towards a single neighbour v. -/
def relaxOne (es : List Edge) (u : Coord) (du : ℚ) (pu : List Coord) (d : DistMap)
    (v : Coord) : DistMap :=
  (weightOf es u v).elim d (fun w => updateMap d v (relaxVal du w pu v (d v)))

/-- Relax every edge leaving u. -/
def relaxAll (es : List Edge) (u : Coord) (du : ℚ) (pu : List Coord) (d : DistMap) :
    DistMap :=
  (neighbors es u).foldl (relaxOne es u du pu) d

/-- Main loop: repeatedly settle the unsettled node of smallest tentative
distance and relax its outgoing edges. -/
def dijkstraAux (es : List Edge) : ℕ → DistMap → List Coord → DistMap
  | 0, d, _ => d
  | fuel + 1, d, unsettled =>
    match pickMin d unsettled with
    | none => d
    | some (u, du, pu) =>
      dijkstraAux es fuel (relaxAll es u du pu d) (unsettled.erase u)

def initMap (s : Coord) : DistMap := fun y => if y = s then some (0, [s]) else none

/-- Final labelling of Dijkstra from source s over the whole node set. -/
def dijkstraMap (es : List Edge) (s : Coord) : DistMap :=
  dijkstraAux es (nodesOf es).length (initMap s) (nodesOf es)

/-- Errors of the embedded application: Python KeyError (missing dict key),
ValueError (min of an empty sequence), NameError (unbound global),
NetworkXNoPath, NodeNotFound, and exhaustion of the loop fuel of the
A-star model. -/
inductive NxError : Type
  | keyError : NxError
  | valueError : NxError
  | noPath : NxError
  | nodeNotFound : NxError
  | nameError : NxError
  | fuelOut : NxError
deriving DecidableEq, Repr

/-- nx.shortest_path(G, source, target, weight="weight"): returns the node
sequence of a minimum-weight path from source to target; raises
NodeNotFound when an endpoint is not a graph node and NetworkXNoPath when
the target is unreachable. -/
def nx_shortest_path (es : List Edge) (s t : Coord) : Except NxError (List Coord) :=
  if s ∈ nodesOf es then
    if t ∈ nodesOf es then
      match dijkstraMap es s t with
      | some cp => .ok cp.2
      | none => .error .noPath
    else .error .nodeNotFound
  else .error .nodeNotFound

section DijkstraLemmas

theorem pickMin_eq_none_iff {d : DistMap} :
    ∀ {uns : List Coord}, pickMin d uns = none ↔ ∀ v ∈ uns, d v = none
  | [] => by simp [pickMin]
  | u :: us => by
    cases hdu : d u with
    | none =>
      cases hrest : pickMin d us with
      | none =>
        simp only [pickMin, hdu, hrest]
        rw [pickMin_eq_none_iff] at hrest
        constructor
        · intro _ v hv
          rcases List.mem_cons.mp hv with rfl | hv
          · exact hdu
          · exact hrest v hv
        · intro _
          trivial
      | some r =>
        simp only [pickMin, hdu, hrest]
        constructor
        · intro h
          exact absurd h (by simp)
        · intro h
          have : pickMin d us = none := by
            rw [pickMin_eq_none_iff]
            intro v hv
            exact h v (List.mem_cons_of_mem u hv)
          rw [this] at hrest
          exact absurd hrest (by simp)
    | some cp =>
      cases hrest : pickMin d us with
      | none =>
        simp only [pickMin, hdu, hrest]
        constructor
        · intro h
          exact absurd h (by simp)
        · intro h
          have := h u (List.mem_cons_self u us)
          rw [hdu] at this
          exact absurd this (by simp)
      | some r =>
        simp only [pickMin, hdu, hrest]
        constructor
        · intro h
          split at h <;> exact absurd h (by simp)
        · intro h
          have := h u (List.mem_cons_self u us)
          rw [hdu] at this
          exact absurd this (by simp)

theorem pickMin_mem {d : DistMap} :
    ∀ {uns : List Coord} {u : Coord} {du : ℚ} {pu : List Coord},
      pickMin d uns = some (u, du, pu) → u ∈ uns ∧ d u = some (du, pu)
  | [], u, du, pu, h => by simp [pickMin] at h
  | a :: us, u, du, pu, h => by
    cases hda : d a with
    | none =>
      simp only [pickMin, hda] at h
      cases hrest : pickMin d us with
      | none => rw [hrest] at h; exact absurd h (by simp)
      | some r =>
        rw [hrest] at h
        rw [h] at hrest
        obtain ⟨hmem, hval⟩ := pickMin_mem hrest
        exact ⟨List.mem_cons_of_mem a hmem, hval⟩
    | some cp =>
      cases hrest : pickMin d us with
      | none =>
        simp only [pickMin, hda, hrest, Option.some.injEq, Prod.mk.injEq] at h
        obtain ⟨h1, h2⟩ := h
        subst h1
        rw [h2] at hda
        exact ⟨List.mem_cons_self a us, hda⟩
      | some r =>
        simp only [pickMin, hda, hrest] at h
        split at h
        · rw [h] at hrest
          obtain ⟨hmem, hval⟩ := pickMin_mem hrest
          exact ⟨List.mem_cons_of_mem a hmem, hval⟩
        · simp only [Option.some.injEq, Prod.mk.injEq] at h
          obtain ⟨h1, h2⟩ := h
          subst h1
          rw [h2] at hda
          exact ⟨List.mem_cons_self a us, hda⟩

theorem pickMin_le {d : DistMap} :
    ∀ {uns : List Coord} {u : Coord} {du : ℚ} {pu : List Coord},
      pickMin d uns = some (u, du, pu) →
      ∀ v ∈ uns, ∀ cv, d v = some cv → du ≤ cv.1
  | [], u, du, pu, h => by simp [pickMin] at h
  | a :: us, u, du, pu, h => by
    intro v hv cv hcv
    cases hda : d a with
    | none =>
      simp only [pickMin, hda] at h
      cases hrest : pickMin d us with
      | none => rw [hrest] at h; exact absurd h (by simp)
      | some r =>
        rw [hrest] at h
        rw [h] at hrest
        rcases List.mem_cons.mp hv with rfl | hv
        · rw [hda] at hcv; exact absurd hcv (by simp)
        · exact pickMin_le hrest v hv cv hcv
    | some cp =>
      cases hrest : pickMin d us with
      | none =>
        simp only [pickMin, hda, hrest, Option.some.injEq, Prod.mk.injEq] at h
        obtain ⟨h1, h2⟩ := h
        subst h1
        rcases List.mem_cons.mp hv with rfl | hv
        · rw [hda] at hcv
          simp only [Option.some.injEq] at hcv
          rw [← hcv, h2]
        · rw [pickMin_eq_none_iff] at hrest
          rw [hrest v hv] at hcv
          exact absurd hcv (by simp)
      | some r =>
        simp only [pickMin, hda, hrest] at h
        split at h
        · rename_i hlt
          have hr : r = (u, du, pu) := Option.some.inj h
          subst hr
          rcases List.mem_cons.mp hv with rfl | hv
          · rw [hda] at hcv
            simp only [Option.some.injEq] at hcv
            rw [← hcv]
            exact le_of_lt hlt
          · exact pickMin_le hrest v hv cv hcv
        · rename_i hnlt
          simp only [Option.some.injEq, Prod.mk.injEq] at h
          obtain ⟨h1, h2⟩ := h
          subst h1
          rcases List.mem_cons.mp hv with rfl | hv
          · rw [hda] at hcv
            simp only [Option.some.injEq] at hcv
            rw [← hcv, h2]
          · have hrv : r.2.1 ≤ cv.1 := pickMin_le hrest v hv cv hcv
            have hcp : cp.1 = du := by rw [h2]
            rw [← hcp]
            exact le_trans (not_lt.mp hnlt) hrv

theorem updateMap_self (d : DistMap) (v : Coord) (x : ℚ × List Coord) :
    updateMap d v x v = some x := by simp [updateMap]

theorem updateMap_ne (d : DistMap) (v : Coord) (x : ℚ × List Coord) {y : Coord}
    (h : y ≠ v) : updateMap d v x y = d y := by simp [updateMap, h]

theorem relaxOne_apply_ne {es : List Edge} {u : Coord} {du : ℚ} {pu : List Coord}
    {d : DistMap} {v : Coord} (y : Coord) (h : y ≠ v) :
    relaxOne es u du pu d v y = d y := by
  unfold relaxOne
  cases hw : weightOf es u v with
  | none => rfl
  | some w =>
    simp only [Option.elim_some]
    exact updateMap_ne d v _ h

theorem relaxOne_apply_self_congr {es : List Edge} {u : Coord} {du : ℚ}
    {pu : List Coord} {X Y : DistMap} {v : Coord} (h : X v = Y v) :
    relaxOne es u du pu X v v = relaxOne es u du pu Y v v := by
  unfold relaxOne
  cases hw : weightOf es u v with
  | none => exact h
  | some w =>
    simp only [Option.elim_some, updateMap_self, h]

theorem foldl_relax_not_mem {es : List Edge} {u : Coord} {du : ℚ} {pu : List Coord} :
    ∀ (l : List Coord) (D : DistMap) (v : Coord), v ∉ l →
      l.foldl (relaxOne es u du pu) D v = D v
  | [], D, v, _ => rfl
  | a :: l, D, v, h => by
    rw [List.foldl_cons]
    have hva : v ≠ a := fun he => h (he ▸ List.mem_cons_self a l)
    rw [foldl_relax_not_mem l _ v (fun hm => h (List.mem_cons_of_mem a hm))]
    exact relaxOne_apply_ne v hva

theorem foldl_relax_mem {es : List Edge} {u : Coord} {du : ℚ} {pu : List Coord} :
    ∀ (l : List Coord) (D : DistMap) (v : Coord), l.Nodup → v ∈ l →
      l.foldl (relaxOne es u du pu) D v = relaxOne es u du pu D v v
  | [], D, v, _, h => by simp at h
  | a :: l, D, v, hnd, h => by
    rw [List.foldl_cons]
    by_cases hva : v = a
    · subst hva
      have hnin : v ∉ l := (List.nodup_cons.mp hnd).1
      rw [foldl_relax_not_mem l _ v hnin]
    · have hv : v ∈ l := (List.mem_cons.mp h).resolve_left hva
      rw [foldl_relax_mem l _ v (List.nodup_cons.mp hnd).2 hv]
      exact relaxOne_apply_self_congr (relaxOne_apply_ne v hva)

theorem addNode_nodup {l : List Coord} (h : l.Nodup) (x : Coord) :
    (addNode l x).Nodup := by
  unfold addNode
  split
  · exact h
  · rename_i hx
    refine List.Nodup.append h (List.nodup_singleton x) ?_
    intro a hal hax
    rw [List.mem_singleton] at hax
    subst hax
    exact hx hal

theorem foldl_nodup (g : List Coord → Edge → List Coord)
    (hg : ∀ acc e, acc.Nodup → (g acc e).Nodup) :
    ∀ (l : List Edge) (acc : List Coord), acc.Nodup → (l.foldl g acc).Nodup
  | [], _, h => h
  | e :: l, acc, h => foldl_nodup g hg l (g acc e) (hg acc e h)

theorem nodesOf_nodup (es : List Edge) : (nodesOf es).Nodup :=
  foldl_nodup _ (fun acc e h => addNode_nodup (addNode_nodup h e.1) e.2.1) es []
    List.nodup_nil

theorem neighbors_nodup (es : List Edge) (u : Coord) : (neighbors es u).Nodup := by
  refine foldl_nodup _ ?_ es [] List.nodup_nil
  intro acc e h
  split
  · exact addNode_nodup h e.2.1
  · split
    · exact addNode_nodup h e.1
    · exact h

theorem relaxAll_apply (es : List Edge) (u : Coord) (du : ℚ) (pu : List Coord)
    (d : DistMap) (v : Coord) :
    relaxAll es u du pu d v =
      if v ∈ neighbors es u then relaxOne es u du pu d v v else d v := by
  unfold relaxAll
  split
  · rename_i hv
    exact foldl_relax_mem _ d v (neighbors_nodup es u) hv
  · rename_i hv
    exact foldl_relax_not_mem _ d v hv

theorem relaxOne_self_spec (es : List Edge) (u : Coord) (du : ℚ) (pu : List Coord)
    (d : DistMap) (v : Coord) :
    (relaxOne es u du pu d v v = d v ∧
       ∀ w, weightOf es u v = some w → ∃ cv, d v = some cv ∧ cv.1 ≤ du + w) ∨
    ∃ w, weightOf es u v = some w ∧
      relaxOne es u du pu d v v = some (du + w, pu ++ [v]) ∧
      ∀ cv, d v = some cv → du + w < cv.1 := by
  unfold relaxOne
  cases hw : weightOf es u v with
  | none =>
    left
    exact ⟨rfl, fun w h => absurd h (by simp)⟩
  | some w =>
    simp only [Option.elim_some, updateMap_self]
    cases hdv : d v with
    | none =>
      right
      refine ⟨w, rfl, ?_, ?_⟩
      · simp [relaxVal]
      · intro cv h
        exact absurd h (by simp)
    | some dv =>
      by_cases hlt : du + w < dv.1
      · right
        refine ⟨w, rfl, ?_, ?_⟩
        · simp [relaxVal, hlt]
        · intro cv h
          simp only [Option.some.injEq] at h
          rw [← h]
          exact hlt
      · left
        refine ⟨?_, ?_⟩
        · simp only [relaxVal, Option.elim_some, if_neg hlt]
        · intro w2 hw2
          simp only [Option.some.injEq] at hw2
          refine ⟨dv, rfl, ?_⟩
          rw [← hw2]
          exact not_lt.mp hlt

/-- Pointwise effect of relaxing all edges out of u: either the label is
unchanged (and any edge from u was already matched), or it is overwritten
by a strictly better label through an edge from u. -/
theorem relaxAll_spec (es : List Edge) (u : Coord) (du : ℚ) (pu : List Coord)
    (d : DistMap) (v : Coord) :
    (relaxAll es u du pu d v = d v ∧
       ∀ w, weightOf es u v = some w → ∃ cv, d v = some cv ∧ cv.1 ≤ du + w) ∨
    ∃ w, weightOf es u v = some w ∧
      relaxAll es u du pu d v = some (du + w, pu ++ [v]) ∧
      ∀ cv, d v = some cv → du + w < cv.1 := by
  rw [relaxAll_apply]
  split
  · exact relaxOne_self_spec es u du pu d v
  · rename_i hv
    left
    refine ⟨rfl, ?_⟩
    intro w hw
    exact absurd (mem_neighbors_iff_weightOf.mpr (by rw [hw]; rfl)) hv

end DijkstraLemmas

/-! ## Dijkstra loop invariant and correctness -/

/-- Loop invariant of the Dijkstra main loop: labels are costs of real
walks, the source keeps its zero label, settled labels are globally
optimal, and every edge out of a settled node has been relaxed. -/
structure DijkInv (es : List Edge) (s : Coord) (d : DistMap) (uns : List Coord) : Prop where
  sound : ∀ v cp, d v = some cp → WalkFrom es s v cp.2 cp.1
  dom : ∀ v, d v ≠ none → v ∈ nodesOf es ∨ v = s
  src : ∃ ps, d s = some (0, ps)
  uns_sub : ∀ v ∈ uns, v ∈ nodesOf es
  uns_nodup : uns.Nodup
  settled_opt : ∀ v, v ∈ nodesOf es → v ∉ uns →
    ∀ q cq, WalkFrom es s v q cq → ∃ cp, d v = some cp ∧ cp.1 ≤ cq
  settled_relax : ∀ a, a ∈ nodesOf es → a ∉ uns → ∀ ca, d a = some ca →
    ∀ v w, weightOf es a v = some w → ∃ cp, d v = some cp ∧ cp.1 ≤ ca.1 + w

theorem DijkInv.initial (es : List Edge) (s : Coord) :
    DijkInv es s (initMap s) (nodesOf es) := by
  refine ⟨?_, ?_, ?_, ?_, nodesOf_nodup es, ?_, ?_⟩
  · intro v cp h
    unfold initMap at h
    split at h
    · rename_i hv
      subst hv
      simp only [Option.some.injEq] at h
      rw [← h]
      exact WalkFrom.single v
    · exact absurd h (by simp)
  · intro v h
    unfold initMap at h
    split at h
    · rename_i hv
      exact Or.inr hv
    · simp at h
  · exact ⟨[s], by simp [initMap]⟩
  · intro v hv
    exact hv
  · intro v hvmem hvuns q cq hq
    exact absurd hvmem hvuns
  · intro a hamem hauns
    exact absurd hamem hauns

/-- When the loop settles the unsettled node of minimum tentative distance,
that distance bounds the cost of any walk ending at an unsettled node. -/
theorem dijk_walk_lb {es : List Edge} {s : Coord} {d : DistMap} {uns : List Coord}
    (hnn : NonnegWeights es) (inv : DijkInv es s d uns)
    {u : Coord} {du : ℚ} {pu : List Coord}
    (hpick : pickMin d uns = some (u, du, pu)) :
    ∀ (n : ℕ) {q : List Coord} {v : Coord} {cq : ℚ}, q.length ≤ n →
      WalkFrom es s v q cq → v ∈ uns → du ≤ cq := by
  intro n
  induction n with
  | zero =>
    intro q v cq hlen hq hv
    cases q with
    | nil => exact absurd rfl hq.ne_nil
    | cons a l => simp at hlen
  | succ n ih =>
    intro q v cq hlen hq hv
    rcases hq.snoc_cases with ⟨hqs, hsv, hc0⟩ | ⟨a, q0, c1, w, hqeq, hq0, hw, hceq⟩
    · subst hsv
      obtain ⟨ps, hps⟩ := inv.src
      have hle := pickMin_le hpick _ hv (0, ps) hps
      rw [hc0]
      exact hle
    · subst hqeq
      subst hceq
      have hlen2 : q0.length ≤ n := by
        simp only [List.length_append, List.length_cons, List.length_nil] at hlen
        omega
      by_cases ha : a ∈ uns
      · have h1 := ih hlen2 hq0 ha
        have hw0 := weightOf_nonneg hnn hw
        linarith
      · have hamem : a ∈ nodesOf es := left_mem_nodesOf_of_weightOf (by rw [hw]; rfl)
        obtain ⟨ca, hca, hcale⟩ := inv.settled_opt a hamem ha q0 c1 hq0
        obtain ⟨cv, hcv, hcvle⟩ := inv.settled_relax a hamem ha ca hca v w hw
        have hmin := pickMin_le hpick v hv cv hcv
        linarith

/-- One settle-and-relax iteration preserves the invariant. -/
theorem DijkInv.step {es : List Edge} {s : Coord} {d : DistMap} {uns : List Coord}
    (hnn : NonnegWeights es) (inv : DijkInv es s d uns)
    {u : Coord} {du : ℚ} {pu : List Coord}
    (hpick : pickMin d uns = some (u, du, pu)) :
    DijkInv es s (relaxAll es u du pu d) (uns.erase u) := by
  obtain ⟨humem, hdu⟩ := pickMin_mem hpick
  have hwalku : WalkFrom es s u pu du := inv.sound u (du, pu) hdu
  have hdu_nonneg : 0 ≤ du := hwalku.cost_nonneg hnn
  have hu_opt : ∀ q cq, WalkFrom es s u q cq → du ≤ cq := by
    intro q cq hq
    exact dijk_walk_lb hnn inv hpick q.length (le_refl _) hq humem
  refine ⟨?_, ?_, ?_, ?_, inv.uns_nodup.erase u, ?_, ?_⟩
  · intro v cp hcp
    rcases relaxAll_spec es u du pu d v with ⟨heq, _⟩ | ⟨w, hw, hval, _⟩
    · rw [heq] at hcp
      exact inv.sound v cp hcp
    · rw [hval] at hcp
      simp only [Option.some.injEq] at hcp
      rw [← hcp]
      exact hwalku.snoc hw
  · intro v h
    rcases relaxAll_spec es u du pu d v with ⟨heq, _⟩ | ⟨w, hw, _, _⟩
    · rw [heq] at h
      exact inv.dom v h
    · exact Or.inl (right_mem_nodesOf_of_weightOf (by rw [hw]; rfl))
  · rcases relaxAll_spec es u du pu d s with ⟨heq, _⟩ | ⟨w, hw, hval, himp⟩
    · rw [heq]
      exact inv.src
    · obtain ⟨ps, hps⟩ := inv.src
      have hlt := himp (0, ps) hps
      have hw0 := weightOf_nonneg hnn hw
      simp only at hlt
      linarith
  · intro v hv
    exact inv.uns_sub v (List.mem_of_mem_erase hv)
  · intro v hvmem hvuns q cq hq
    by_cases hvu : v = u
    · subst hvu
      have hvq := hu_opt q cq hq
      rcases relaxAll_spec es v du pu d v with ⟨heq, _⟩ | ⟨w, hw, hval, himp⟩
      · refine ⟨(du, pu), ?_, hvq⟩
        rw [heq]
        exact hdu
      · have hlt := himp (du, pu) hdu
        have hw0 := weightOf_nonneg hnn hw
        simp only at hlt
        linarith
    · have hvold : v ∉ uns := fun hin => hvuns ((List.mem_erase_of_ne hvu).mpr hin)
      obtain ⟨cp, hcp, hle⟩ := inv.settled_opt v hvmem hvold q cq hq
      rcases relaxAll_spec es u du pu d v with ⟨heq, _⟩ | ⟨w, hw, hval, himp⟩
      · refine ⟨cp, ?_, hle⟩
        rw [heq]
        exact hcp
      · have hlt := himp cp hcp
        refine ⟨(du + w, pu ++ [v]), hval, ?_⟩
        simp only
        linarith
  · intro a hamem hauns ca hca v w hw
    by_cases hau : a = u
    · subst hau
      rcases relaxAll_spec es a du pu d a with ⟨hequ, _⟩ | ⟨w0, hw0, hval0, himp0⟩
      · rw [hequ] at hca
        have hcaeq : ca = (du, pu) := by
          rw [hdu] at hca
          exact (Option.some.inj hca).symm
        rcases relaxAll_spec es a du pu d v with ⟨heqv, hmatched⟩ | ⟨w1, hw1, hval1, _⟩
        · obtain ⟨cv, hcv, hcvle⟩ := hmatched w hw
          refine ⟨cv, ?_, ?_⟩
          · rw [heqv]
            exact hcv
          · rw [hcaeq]
            exact hcvle
        · have hw1w : w1 = w := by
            rw [hw] at hw1
            exact (Option.some.inj hw1).symm
          refine ⟨(du + w1, pu ++ [v]), hval1, ?_⟩
          rw [hcaeq, hw1w]
      · have hlt := himp0 (du, pu) hdu
        have hw00 := weightOf_nonneg hnn hw0
        simp only at hlt
        linarith
    · have haold : a ∉ uns := fun hin => hauns ((List.mem_erase_of_ne hau).mpr hin)
      rcases relaxAll_spec es u du pu d a with ⟨heqa, _⟩ | ⟨w0, hw0, hval0, himp0⟩
      · rw [heqa] at hca
        obtain ⟨cp, hcp, hle⟩ := inv.settled_relax a hamem haold ca hca v w hw
        rcases relaxAll_spec es u du pu d v with ⟨heqv, _⟩ | ⟨w1, hw1, hval1, himp1⟩
        · refine ⟨cp, ?_, hle⟩
          rw [heqv]
          exact hcp
        · have hlt := himp1 cp hcp
          refine ⟨(du + w1, pu ++ [v]), hval1, ?_⟩
          simp only
          linarith
      · exfalso
        have hwalka : WalkFrom es s a (pu ++ [a]) (du + w0) := hwalku.snoc hw0
        obtain ⟨cp0, hcp0, hle0⟩ :=
          inv.settled_opt a hamem haold (pu ++ [a]) (du + w0) hwalka
        have hlt := himp0 cp0 hcp0
        linarith

/-- The correctness target for the final labelling: soundness, optimality
and completeness. -/
def DijkFinal (es : List Edge) (s : Coord) (dF : DistMap) : Prop :=
  (∀ v cp, dF v = some cp → WalkFrom es s v cp.2 cp.1) ∧
  (∀ v cp, dF v = some cp → ∀ q cq, WalkFrom es s v q cq → cp.1 ≤ cq) ∧
  (∀ v q cq, WalkFrom es s v q cq → dF v ≠ none)

theorem DijkInv.final {es : List Edge} {s : Coord} {d : DistMap} {uns : List Coord}
    (hs : s ∈ nodesOf es) (inv : DijkInv es s d uns)
    (hterm : ∀ v ∈ uns, d v = none) : DijkFinal es s d := by
  have hsettled : ∀ v, d v ≠ none → v ∈ nodesOf es ∧ v ∉ uns := by
    intro v h
    have hmem : v ∈ nodesOf es := by
      rcases inv.dom v h with hm | hm
      · exact hm
      · rw [hm]
        exact hs
    refine ⟨hmem, ?_⟩
    intro hin
    exact h (hterm v hin)
  refine ⟨inv.sound, ?_, ?_⟩
  · intro v cp hcp q cq hq
    obtain ⟨hmem, hnin⟩ := hsettled v (by rw [hcp]; simp)
    obtain ⟨cp2, hcp2, hle⟩ := inv.settled_opt v hmem hnin q cq hq
    rw [hcp] at hcp2
    rw [Option.some.inj hcp2]
    exact hle
  · suffices haux : ∀ (n : ℕ) {q : List Coord} {v : Coord} {cq : ℚ}, q.length ≤ n →
        WalkFrom es s v q cq → d v ≠ none by
      intro v q cq hq
      exact haux q.length (le_refl _) hq
    intro n
    induction n with
    | zero =>
      intro q v cq hlen hq
      cases q with
      | nil => exact absurd rfl hq.ne_nil
      | cons a l => simp at hlen
    | succ n ih =>
      intro q v cq hlen hq
      rcases hq.snoc_cases with ⟨hqs, hsv, hc0⟩ | ⟨a, q0, c1, w, hqeq, hq0, hw, hceq⟩
      · obtain ⟨ps, hps⟩ := inv.src
        rw [← hsv, hps]
        simp
      · subst hqeq
        have hlen2 : q0.length ≤ n := by
          simp only [List.length_append, List.length_cons, List.length_nil] at hlen
          omega
        have hda : d a ≠ none := ih hlen2 hq0
        obtain ⟨hamem, hanin⟩ := hsettled a hda
        cases hdaval : d a with
        | none => exact absurd hdaval hda
        | some ca =>
          obtain ⟨cp, hcp, _⟩ := inv.settled_relax a hamem hanin ca hdaval v w hw
          rw [hcp]
          simp

theorem dijkstraAux_final {es : List Edge} {s : Coord} (hnn : NonnegWeights es)
    (hs : s ∈ nodesOf es) :
    ∀ (fuel : ℕ) (d : DistMap) (uns : List Coord), DijkInv es s d uns →
      uns.length ≤ fuel → DijkFinal es s (dijkstraAux es fuel d uns) := by
  intro fuel
  induction fuel with
  | zero =>
    intro d uns inv hlen
    have huns : uns = [] := List.length_eq_zero.mp (Nat.le_zero.mp hlen)
    subst huns
    exact inv.final hs (by intro v hv; simp at hv)
  | succ n ih =>
    intro d uns inv hlen
    unfold dijkstraAux
    cases hpick : pickMin d uns with
    | none => exact inv.final hs (pickMin_eq_none_iff.mp hpick)
    | some r =>
      obtain ⟨u, du, pu⟩ := r
      have hstep := inv.step hnn hpick
      have humem := (pickMin_mem hpick).1
      have hlen2 : (uns.erase u).length ≤ n := by
        rw [List.length_erase_of_mem humem]
        have : 1 ≤ uns.length := List.length_pos.mpr (List.ne_nil_of_mem humem)
        omega
      exact ih _ _ hstep hlen2

/-- Correctness of the Dijkstra labelling: sound, optimal and complete. -/
theorem dijkstraMap_correct (es : List Edge) (s : Coord) (hnn : NonnegWeights es)
    (hs : s ∈ nodesOf es) : DijkFinal es s (dijkstraMap es s) := by
  unfold dijkstraMap
  exact dijkstraAux_final hnn hs _ _ _ (DijkInv.initial es s) (le_refl _)

/-! ## The Bellman-Ford engine

nx.single_source_bellman_ford_path(G, source) computes shortest paths from
the source to every reachable node by iterated edge relaxation and returns
the dict mapping each reachable node to its path.  The model below runs
|V| - 1 rounds, each relaxing every edge out of every labelled node. -/

/-- Relax all edges out of u if u currently carries a label. -/
def bfStep (es : List Edge) (d : DistMap) (u : Coord) : DistMap :=
  (d u).elim d (fun cu => relaxAll es u cu.1 cu.2 d)

/-- One Bellman-Ford round over every node. -/
def bfRound (es : List Edge) (d : DistMap) : DistMap :=
  (nodesOf es).foldl (bfStep es) d

def bfIter (es : List Edge) : ℕ → DistMap → DistMap
  | 0, d => d
  | k + 1, d => bfIter es k (bfRound es d)

/-- Labelling computed by the Bellman-Ford engine: |V| - 1 relaxation
rounds starting from the source label. -/
def bellmanFordMap (es : List Edge) (s : Coord) : DistMap :=
  bfIter es ((nodesOf es).length - 1) (initMap s)

/-- nx.single_source_bellman_ford_path(G, source): the dict mapping every
reachable node to its shortest path from the source (keyed here in node
order; the engine returns this whole dict, one entry per reachable node). -/
def single_source_bellman_ford_path (es : List Edge) (s : Coord) :
    List (Coord × List Coord) :=
  (nodesOf es).filterMap (fun v => (bellmanFordMap es s v).map (fun cp => (v, cp.2)))

section BellmanFord

/-- Pointwise monotonicity: labels never disappear, costs never increase. -/
def MapLE (d d2 : DistMap) : Prop :=
  ∀ v cv, d v = some cv → ∃ cv2, d2 v = some cv2 ∧ cv2.1 ≤ cv.1

theorem MapLE.rfl (d : DistMap) : MapLE d d := fun _ cv h => ⟨cv, h, le_refl _⟩

theorem MapLE.trans {a b c : DistMap} (h1 : MapLE a b) (h2 : MapLE b c) : MapLE a c := by
  intro v cv h
  obtain ⟨cv2, hb, hle2⟩ := h1 v cv h
  obtain ⟨cv3, hc, hle3⟩ := h2 v cv2 hb
  exact ⟨cv3, hc, le_trans hle3 hle2⟩

theorem relaxAll_mapLE (es : List Edge) (u : Coord) (du : ℚ) (pu : List Coord)
    (d : DistMap) : MapLE d (relaxAll es u du pu d) := by
  intro v cv h
  rcases relaxAll_spec es u du pu d v with ⟨heq, _⟩ | ⟨w, hw, hval, himp⟩
  · exact ⟨cv, by rw [heq]; exact h, le_refl _⟩
  · exact ⟨(du + w, pu ++ [v]), hval, le_of_lt (himp cv h)⟩

theorem bfStep_mapLE (es : List Edge) (d : DistMap) (u : Coord) :
    MapLE d (bfStep es d u) := by
  unfold bfStep
  cases hdu : d u with
  | none => exact MapLE.rfl d
  | some cu =>
    simp only [Option.elim_some]
    exact relaxAll_mapLE es u cu.1 cu.2 d

theorem bfFold_mapLE (es : List Edge) :
    ∀ (l : List Coord) (d : DistMap), MapLE d (l.foldl (bfStep es) d)
  | [], d => MapLE.rfl d
  | u :: l, d => (bfStep_mapLE es d u).trans (bfFold_mapLE es l (bfStep es d u))

/-- Soundness of a labelling: every label is a real walk from s. -/
def BFSound (es : List Edge) (s : Coord) (d : DistMap) : Prop :=
  ∀ v cp, d v = some cp → WalkFrom es s v cp.2 cp.1

theorem BFSound.relaxAll {es : List Edge} {s u : Coord} {du : ℚ} {pu : List Coord}
    {d : DistMap} (hd : BFSound es s d) (hu : WalkFrom es s u pu du) :
    BFSound es s (relaxAll es u du pu d) := by
  intro v cp hcp
  rcases relaxAll_spec es u du pu d v with ⟨heq, _⟩ | ⟨w, hw, hval, _⟩
  · rw [heq] at hcp
    exact hd v cp hcp
  · rw [hval] at hcp
    simp only [Option.some.injEq] at hcp
    rw [← hcp]
    exact hu.snoc hw

theorem BFSound.bfstep_pres {es : List Edge} {s : Coord} {d : DistMap} (hd : BFSound es s d)
    (u : Coord) : BFSound es s (bfStep es d u) := by
  unfold bfStep
  cases hdu : d u with
  | none => exact hd
  | some cu =>
    simp only [Option.elim_some]
    exact hd.relaxAll (hd u cu hdu)

theorem BFSound.fold {es : List Edge} {s : Coord} :
    ∀ (l : List Coord) {d : DistMap}, BFSound es s d → BFSound es s (l.foldl (bfStep es) d)
  | [], _, hd => hd
  | u :: l, d, hd => BFSound.fold l (hd.bfstep_pres u)

theorem BFSound.iter {es : List Edge} {s : Coord} :
    ∀ (k : ℕ) {d : DistMap}, BFSound es s d → BFSound es s (bfIter es k d)
  | 0, _, hd => hd
  | k + 1, d, hd => BFSound.iter k (BFSound.fold (nodesOf es) hd)

theorem BFSound.init (es : List Edge) (s : Coord) : BFSound es s (initMap s) := by
  intro v cp h
  unfold initMap at h
  split at h
  · rename_i hv
    subst hv
    simp only [Option.some.injEq] at h
    rw [← h]
    exact WalkFrom.single v
  · exact absurd h (by simp)

/-- Coverage after k rounds: every walk of at most k edges is matched. -/
def BFCover (es : List Edge) (s : Coord) (d : DistMap) (k : ℕ) : Prop :=
  ∀ v q cq, WalkFrom es s v q cq → q.length ≤ k + 1 → ∃ cp, d v = some cp ∧ cp.1 ≤ cq

theorem bfCover_init (es : List Edge) (s : Coord) : BFCover es s (initMap s) 0 := by
  intro v q cq hq hlen
  cases q with
  | nil => exact absurd rfl hq.ne_nil
  | cons a l =>
    cases l with
    | nil =>
      obtain ⟨has, hrest⟩ := hq.cons_cases
      rcases hrest with ⟨_, hsv, hc⟩ | ⟨v0, w, c2, _, hwalk, _, _⟩
      · refine ⟨(0, [s]), ?_, ?_⟩
        · rw [← hsv]
          simp [initMap]
        · rw [hc]
      · exact absurd rfl hwalk.ne_nil
    | cons b l2 => simp at hlen

/-- If a labelled node a sits in the fold list, then after the fold every
edge out of a has been relaxed against the label of a. -/
theorem bfFold_relax (es : List Edge) :
    ∀ (l : List Coord) (D : DistMap) (a : Coord), a ∈ l →
      ∀ ca, D a = some ca → ∀ v w, weightOf es a v = some w →
      ∃ cp, (l.foldl (bfStep es) D) v = some cp ∧ cp.1 ≤ ca.1 + w
  | [], _, a, ha, _, _, _, _, _ => by simp at ha
  | b :: l, D, a, ha, ca, hca, v, w, hw => by
    rw [List.foldl_cons]
    by_cases hab : a = b
    · subst hab
      have hstep : bfStep es D a = relaxAll es a ca.1 ca.2 D := by
        unfold bfStep
        rw [hca]
        exact rfl
      have hrel : ∃ cp, (bfStep es D a) v = some cp ∧ cp.1 ≤ ca.1 + w := by
        rw [hstep]
        rcases relaxAll_spec es a ca.1 ca.2 D v with ⟨heq, hm⟩ | ⟨w1, hw1, hval, _⟩
        · obtain ⟨cv, hcv, hle⟩ := hm w hw
          exact ⟨cv, by rw [heq]; exact hcv, hle⟩
        · have hww : w1 = w := by
            rw [hw] at hw1
            exact (Option.some.inj hw1).symm
          subst hww
          exact ⟨(ca.1 + w1, ca.2 ++ [v]), hval, le_refl _⟩
      obtain ⟨cp, hcp, hle⟩ := hrel
      obtain ⟨cp2, hcp2, hle2⟩ := bfFold_mapLE es l (bfStep es D a) v cp hcp
      exact ⟨cp2, hcp2, le_trans hle2 hle⟩
    · have hal : a ∈ l := (List.mem_cons.mp ha).resolve_left hab
      obtain ⟨ca2, hca2, hle2⟩ := bfStep_mapLE es D b a ca hca
      obtain ⟨cp, hcp, hle⟩ := bfFold_relax es l (bfStep es D b) a hal ca2 hca2 v w hw
      exact ⟨cp, hcp, by linarith⟩

theorem bfCover_step (es : List Edge) (s : Coord) {d : DistMap} {k : ℕ}
    (hcov : BFCover es s d k) : BFCover es s (bfRound es d) (k + 1) := by
  intro v q cq hq hlen
  rcases hq.snoc_cases with ⟨hqs, hsv, hc0⟩ | ⟨a, q0, c1, w, hqeq, hq0, hw, hceq⟩
  · obtain ⟨cp, hcp, hle⟩ := hcov v q cq hq (by rw [hqs]; simp)
    obtain ⟨cp2, hcp2, hle2⟩ := bfFold_mapLE es (nodesOf es) d v cp hcp
    exact ⟨cp2, hcp2, le_trans hle2 hle⟩
  · subst hqeq
    subst hceq
    have hlen0 : q0.length ≤ k + 1 := by
      simp only [List.length_append, List.length_cons, List.length_nil] at hlen
      omega
    obtain ⟨ca, hca, hcale⟩ := hcov a q0 c1 hq0 hlen0
    have hamem : a ∈ nodesOf es := left_mem_nodesOf_of_weightOf (by rw [hw]; rfl)
    obtain ⟨cp, hcp, hle⟩ := bfFold_relax es (nodesOf es) d a hamem ca hca v w hw
    exact ⟨cp, hcp, by linarith⟩

theorem bfIter_cover (es : List Edge) (s : Coord) :
    ∀ (k : ℕ) (d : DistMap) (j : ℕ), BFCover es s d j →
      BFCover es s (bfIter es k d) (j + k)
  | 0, d, j, h => h
  | k + 1, d, j, h => by
    have h2 := bfIter_cover es s k (bfRound es d) (j + 1) (bfCover_step es s h)
    rw [show j + (k + 1) = (j + 1) + k by omega]
    exact h2

/-- Correctness of the Bellman-Ford labelling: sound, optimal and complete. -/
theorem bellmanFordMap_correct (es : List Edge) (s : Coord) (hnn : NonnegWeights es)
    (hs : s ∈ nodesOf es) : DijkFinal es s (bellmanFordMap es s) := by
  have hsound : BFSound es s (bellmanFordMap es s) :=
    BFSound.iter _ (BFSound.init es s)
  have hcov : BFCover es s (bellmanFordMap es s) ((nodesOf es).length - 1) := by
    have h := bfIter_cover es s ((nodesOf es).length - 1) (initMap s) 0
      (bfCover_init es s)
    rw [show 0 + ((nodesOf es).length - 1) = (nodesOf es).length - 1 by omega] at h
    exact h
  have hpos : 1 ≤ (nodesOf es).length := List.length_pos.mpr (List.ne_nil_of_mem hs)
  refine ⟨hsound, ?_, ?_⟩
  · intro v cp hcp q cq hq
    obtain ⟨q2, c2, hq2, hc2le, hlen2⟩ := hq.bounded_exists hnn hs
    have hlen2b : q2.length ≤ ((nodesOf es).length - 1) + 1 := by omega
    obtain ⟨cp2, hcp2, hle⟩ := hcov v q2 c2 hq2 hlen2b
    rw [hcp] at hcp2
    rw [Option.some.inj hcp2]
    linarith
  · intro v q cq hq
    obtain ⟨q2, c2, hq2, _, hlen2⟩ := hq.bounded_exists hnn hs
    have hlen2b : q2.length ≤ ((nodesOf es).length - 1) + 1 := by omega
    obtain ⟨cp2, hcp2, _⟩ := hcov v q2 c2 hq2 hlen2b
    rw [hcp2]
    simp

/-- Membership in the returned Bellman-Ford path dict. -/
theorem mem_bf_paths {es : List Edge} {s t : Coord} {p : List Coord} :
    (t, p) ∈ single_source_bellman_ford_path es s ↔
      t ∈ nodesOf es ∧ ∃ c, bellmanFordMap es s t = some (c, p) := by
  unfold single_source_bellman_ford_path
  rw [List.mem_filterMap]
  constructor
  · rintro ⟨a, ha, hfa⟩
    cases hba : bellmanFordMap es s a with
    | none =>
      rw [hba] at hfa
      simp at hfa
    | some cp =>
      rw [hba] at hfa
      simp only [Option.map_some', Option.some.injEq] at hfa
      obtain ⟨h1, h2⟩ := Prod.mk.inj hfa
      subst h1
      refine ⟨ha, cp.1, ?_⟩
      rw [hba, ← h2]
  · rintro ⟨ht, c, hc⟩
    refine ⟨t, ht, ?_⟩
    rw [hc]
    simp

end BellmanFord

/-! ## The A-star engine

nx.astar_path(G, source, target, heuristic, weight="weight") as implemented
by networkx: a heap of (priority, counter, node, dist, parent) entries,
explored mapping a node to its parent, enqueued recording the best pushed
cost and the memoised heuristic per node, and lazy re-expansion when a
popped entry still matches the best known cost.  The heuristic is a
function parameter; the code passes the Euclidean point distance.  The
loop runs on explicit fuel; exhaustion is a distinguished error, never hit
in the executions analysed in this file. -/

structure AStarEntry : Type where
  pri : ℚ
  cnt : ℕ
  node : Coord
  dist : ℚ
  parent : Option Coord
deriving DecidableEq, Repr

/-- heapq pop: remove the entry with lexicographically least
(priority, counter); counters are unique, so the order is total. -/
def popMinEntry : List AStarEntry → Option (AStarEntry × List AStarEntry)
  | [] => none
  | e :: rest =>
    match popMinEntry rest with
    | none => some (e, [])
    | some (m, others) =>
      if e.pri < m.pri ∨ (e.pri = m.pri ∧ e.cnt < m.cnt) then some (e, rest)
      else some (m, e :: others)

/-- Lookup in an association list (Python dict read). -/
def lookupA {β : Type} (l : List (Coord × β)) (k : Coord) : Option β :=
  (l.find? (fun pr => decide (pr.1 = k))).map (fun pr => pr.2)

/-- Overwrite in an association list (Python dict assignment). -/
def setA {β : Type} (l : List (Coord × β)) (k : Coord) (x : β) : List (Coord × β) :=
  (l.filter (fun pr => decide (pr.1 ≠ k))) ++ [(k, x)]

/-- Follow the explored parent chain back to the source and produce the
path in source-to-target order. -/
def buildPath (explored : List (Coord × Option Coord)) :
    ℕ → Option Coord → List Coord → Option (List Coord)
  | _, none, acc => some acc
  | 0, some _, _ => none
  | f + 1, some x, acc =>
    match lookupA explored x with
    | none => none
    | some par => buildPath explored f par (x :: acc)

/-- Push step for one neighbour of the current node, exactly as in the
networkx loop body: skip when the recorded queue cost is not beaten,
memoise the heuristic on first contact, requeue otherwise. -/
def astarPush (es : List Edge) (h : Coord → Coord → ℚ) (t cur : Coord) (dist : ℚ)
    (st : List (Coord × ℚ × ℚ) × List AStarEntry × ℕ) (nb : Coord) :
    List (Coord × ℚ × ℚ) × List AStarEntry × ℕ :=
  match weightOf es cur nb with
  | none => st
  | some w =>
    let ncost := dist + w
    match lookupA st.1 nb with
    | some qh =>
      if qh.1 ≤ ncost then st
      else (setA st.1 nb (ncost, qh.2),
        st.2.1 ++ [⟨ncost + qh.2, st.2.2, nb, ncost, some cur⟩], st.2.2 + 1)
    | none =>
      let hv := h nb t
      (setA st.1 nb (ncost, hv),
        st.2.1 ++ [⟨ncost + hv, st.2.2, nb, ncost, some cur⟩], st.2.2 + 1)

/-- The networkx astar_path main loop. -/
def astarLoop (es : List Edge) (h : Coord → Coord → ℚ) (t : Coord) :
    ℕ → List AStarEntry → List (Coord × Option Coord) → List (Coord × ℚ × ℚ) → ℕ →
    Except NxError (List Coord)
  | 0, _, _, _, _ => .error .fuelOut
  | fuel + 1, queue, explored, enq, cnt =>
    match popMinEntry queue with
    | none => .error .noPath
    | some (e, rest) =>
      if e.node = t then
        match buildPath explored (explored.length + 1) e.parent [e.node] with
        | some p => .ok p
        | none => .error .fuelOut
      else
        let doExpand : Bool :=
          match lookupA explored e.node with
          | none => true
          | some none => false
          | some (some _) =>
            match lookupA enq e.node with
            | some qh => decide (¬ qh.1 < e.dist)
            | none => false
        if doExpand then
          let explored2 := setA explored e.node e.parent
          let st := (neighbors es e.node).foldl (astarPush es h t e.node e.dist)
            (enq, rest, cnt)
          astarLoop es h t fuel st.2.1 explored2 st.1 st.2.2
        else
          astarLoop es h t fuel rest explored enq cnt

/-- Fuel bound for the loop; generous for the small instances analysed. -/
def astarFuel (es : List Edge) : ℕ :=
  (es.length + 1) * ((nodesOf es).length + 1) * 4

/-- nx.astar_path(G, source, target, heuristic, weight="weight"). -/
def nx_astar_path (es : List Edge) (h : Coord → Coord → ℚ) (s t : Coord) :
    Except NxError (List Coord) :=
  if s ∈ nodesOf es then
    if t ∈ nodesOf es then
      astarLoop es h t (astarFuel es) [⟨0, 0, s, 0, none⟩] [] [] 1
    else .error .nodeNotFound
  else .error .nodeNotFound

/-! ## Geometry ingestor, location registry, rendering, comparator -/

/-- geojson_to_graph: for every polyline, add one edge between each pair of
consecutive coordinates, weighted by their point distance (stored as the
squared distance, see sqDist). -/
def geojson_to_graph (polylines : List (List Coord)) : List Edge :=
  polylines.foldl (fun acc coords =>
    acc ++ (coords.zip coords.tail).map (fun pr => (pr.1, pr.2, sqDist pr.1 pr.2))) []

/-- The Location Registry: the literal port table of the code, including
the trailing space in the Istanbul key, preserved exactly. -/
def ports : List (String × Coord) := [
  ("Mumbai", (72.40000916, 18.99999046)),
  ("Chennai", (80.28001071, 13.08998712)),
  ("Kolkata", (88.0, 20.99998093)),
  ("Kochi", (75.20000763, 9.30000019)),
  ("New Mangalore", (74.79998259, 12.89999481)),
  ("Thiruvananthapuram", (78.09999748, 8.80000356)),
  ("New Haven", (-72.91087341, 41.2885704)),
  ("Brighton", (-0.1742500067, 50.80424118)),
  ("Gale", (80.09999847, 5.799990177)),
  ("Doha", (51.59999084, 26.2999897)),
  ("Libreville", (7.999989986, 0.3487800062)),
  ("Istanbul ", (29.10000038, 41.09999084)),
  ("Busan", (129.040000, 35.100000)),
  ("Los Angeles", (-118.2200, 33.7385)),
  ("Sydney", (151.2333, -33.9500))]

/-- Exact, case-and-whitespace-sensitive dict lookup (Python ports[name]
and the membership test name in ports). -/
def lookupPort (tbl : List (String × Coord)) (name : String) : Option Coord :=
  (tbl.find? (fun pr => decide (pr.1 = name))).map (fun pr => pr.2)

/-- find_shortest_path_dijkstra: port lookups, snapping of both endpoints,
then nx.shortest_path.  The wall-clock duration and resident memory sample
are measurements made by the code (time.time, psutil); the embedding
receives the measured values as oracle parameters and returns them
unchanged.  A missing port key raises KeyError; min over an empty node set
raises ValueError; both propagate, as does NetworkXNoPath. -/
def find_shortest_path_dijkstra (es : List Edge) (tbl : List (String × Coord))
    (src dst : String) (tm : ℚ) (mem : ℤ) :
    Except NxError (List Coord × ℚ × ℤ) :=
  (lookupPort tbl src).elim (Except.error NxError.keyError) (fun sc =>
  (lookupPort tbl dst).elim (Except.error NxError.keyError) (fun dc =>
  (snap_to_nearest_node (nodesOf es) sc).elim (Except.error NxError.valueError) (fun sn =>
  (snap_to_nearest_node (nodesOf es) dc).elim (Except.error NxError.valueError) (fun dn =>
  (nx_shortest_path es sn dn).map (fun p => (p, tm, mem))))))

/-- find_shortest_path_astar: as the Dijkstra engine but calling
nx.astar_path; the heuristic defined inside the engine is the Euclidean
point distance, which the embedding receives as the parameter h. -/
def find_shortest_path_astar (es : List Edge) (tbl : List (String × Coord))
    (h : Coord → Coord → ℚ) (src dst : String) (tm : ℚ) (mem : ℤ) :
    Except NxError (List Coord × ℚ × ℤ) :=
  (lookupPort tbl src).elim (Except.error NxError.keyError) (fun sc =>
  (lookupPort tbl dst).elim (Except.error NxError.keyError) (fun dc =>
  (snap_to_nearest_node (nodesOf es) sc).elim (Except.error NxError.valueError) (fun sn =>
  (snap_to_nearest_node (nodesOf es) dc).elim (Except.error NxError.valueError) (fun dn =>
  (nx_astar_path es h sn dn).map (fun p => (p, tm, mem))))))

/-- find_shortest_path_bellmanford: both endpoints are looked up and
snapped, but the nx call is single_source_bellman_ford_path(G, source),
so the whole source-rooted path dict is returned; the snapped destination
is computed and then unused, and no destination-specific path is ever
extracted. -/
def find_shortest_path_bellmanford (es : List Edge) (tbl : List (String × Coord))
    (src dst : String) (tm : ℚ) (mem : ℤ) :
    Except NxError (List (Coord × List Coord) × ℚ × ℤ) :=
  (lookupPort tbl src).elim (Except.error NxError.keyError) (fun sc =>
  (lookupPort tbl dst).elim (Except.error NxError.keyError) (fun dc =>
  (snap_to_nearest_node (nodesOf es) sc).elim (Except.error NxError.valueError) (fun sn =>
  (snap_to_nearest_node (nodesOf es) dc).elim (Except.error NxError.valueError) (fun _dn =>
  Except.ok (single_source_bellman_ford_path es sn, tm, mem)))))

/-- Data exposed to the folium map: two markers at the swapped (latitude,
longitude) port coordinates and the route polyline with every path vertex
swapped to (latitude, longitude). -/
structure RenderedMap : Type where
  source_marker : Coord
  dest_marker : Coord
  polyline : List Coord
deriving DecidableEq, Repr

/-- plot_route(source, destination, path). -/
def plot_route (tbl : List (String × Coord)) (source destination : String)
    (path : List Coord) : Except NxError RenderedMap :=
  (lookupPort tbl source).elim (Except.error NxError.keyError) (fun sc =>
  (lookupPort tbl destination).elim (Except.error NxError.keyError) (fun dc =>
  Except.ok ⟨(sc.2, sc.1), (dc.2, dc.1), path.map (fun x => (x.2, x.1))⟩))

inductive Alg : Type
  | dijkstra : Alg
  | astar : Alg
  | bellmanford : Alg
deriving DecidableEq, Repr

/-- The comparator of index (lines 172-178): two strict comparisons with
Bellman-Ford as the fallback of the final else branch.  The code embeds
the chosen label in the fixed sentence Best algorithm based on time
complexity. -/
def best_algorithm (dijkstra_time astar_time bellmanford_time : ℚ) : Alg :=
  if dijkstra_time < astar_time ∧ dijkstra_time < bellmanford_time then Alg.dijkstra
  else if astar_time < dijkstra_time ∧ astar_time < bellmanford_time then Alg.astar
  else Alg.bellmanford

/-- Modelled from the spec: Comparator contract of section 4.5 — priority
order Dijkstra, A-star, Bellman-Ford; the first algorithm in that order
whose elapsed time is lower than or equal to the other two wins.  Used
only to compare the code behaviour against the claim. -/
def fastestSpec (dijkstra_time astar_time bellmanford_time : ℚ) : Alg :=
  if dijkstra_time ≤ astar_time ∧ dijkstra_time ≤ bellmanford_time then Alg.dijkstra
  else if astar_time ≤ dijkstra_time ∧ astar_time ≤ bellmanford_time then Alg.astar
  else Alg.bellmanford

/-! ## The request handlers -/

structure Metrics : Type where
  dijkstra_time : ℚ
  astar_time : ℚ
  bellmanford_time : ℚ
  dijkstra_memory : ℤ
  astar_memory : ℤ
  bellmanford_memory : ℤ
deriving DecidableEq, Repr

/-- Module-level mutable state: the global performance_metrics is either
unassigned (none — evaluating it raises NameError) or holds the six-key
metrics dict of the last successful query. -/
structure AppState : Type where
  performance_metrics : Option Metrics
deriving DecidableEq, Repr

/-- State at module import time: the global has never been assigned. -/
def initialState : AppState := ⟨none⟩

inductive MapHtml : Type
  | rendered : RenderedMap → MapHtml
  | invalidMsg : MapHtml
deriving DecidableEq, Repr

structure IndexResponse : Type where
  map_html : Option MapHtml
  best_algorithm : Option Alg
  time_taken : Option (ℚ × ℚ × ℚ)
  memory_used : Option (ℤ × ℤ × ℤ)
deriving DecidableEq, Repr

inductive Method : Type
  | GET : Method
  | POST : Method
deriving DecidableEq, Repr

/-- The index request handler.  Form fields arrive as optional strings
(request.form.get returns None when absent, and None in ports is False);
the measured times and memory samples are oracle inputs standing for the
wall-clock and psutil measurements of the three engines.  An exception
escaping an engine propagates as Except.error and aborts the whole
request, skipping everything after it — the code has no try/except. -/
def index (es : List Edge) (tbl : List (String × Coord)) (h : Coord → Coord → ℚ)
    (st : AppState) (method : Method) (formSource formDestination : Option String)
    (dt at2 bt : ℚ) (dm am bm : ℤ) :
    Except NxError (IndexResponse × AppState) :=
  match method with
  | Method.GET => Except.ok (⟨none, none, none, none⟩, st)
  | Method.POST =>
    match formSource, formDestination with
    | some source, some destination =>
      if (lookupPort tbl source).isSome ∧ (lookupPort tbl destination).isSome then
        (find_shortest_path_dijkstra es tbl source destination dt dm).bind (fun dres =>
        (find_shortest_path_astar es tbl h source destination at2 am).bind (fun ares =>
        (find_shortest_path_bellmanford es tbl source destination bt bm).bind (fun bres =>
        (plot_route tbl source destination dres.1).bind (fun m =>
        Except.ok (⟨some (MapHtml.rendered m), some (best_algorithm dt at2 bt),
          some (dt, at2, bt), some (dm, am, bm)⟩,
          ⟨some ⟨dres.2.1, ares.2.1, bres.2.1, dres.2.2, ares.2.2, bres.2.2⟩⟩)))))
      else Except.ok (⟨some MapHtml.invalidMsg, none, none, none⟩, st)
    | _, _ => Except.ok (⟨some MapHtml.invalidMsg, none, none, none⟩, st)

inductive AnalysisResponse : Type
  | noDataMsg : AnalysisResponse
  | charts : Metrics → AnalysisResponse
deriving DecidableEq, Repr

/-- Python truthiness of the stored metrics dict: it always carries six
keys, hence is never falsy. -/
def metricsFalsy (m : Metrics) : Bool := false

/-- The analysis request handler: evaluating the global performance_metrics
raises NameError when it was never assigned; otherwise the no-data guard
tests the truthiness of the bound dict and falls through to the charts. -/
def analysis (st : AppState) : Except NxError AnalysisResponse :=
  match st.performance_metrics with
  | none => Except.error NxError.nameError
  | some m =>
    if metricsFalsy m then Except.ok AnalysisResponse.noDataMsg
    else Except.ok (AnalysisResponse.charts m)

theorem sqDist_self (a : Coord) : sqDist a a = 0 := by
  simp [sqDist]

theorem sqDist_eq_zero_iff {a b : Coord} : sqDist a b = 0 ↔ a = b := by
  unfold sqDist
  constructor
  · intro h
    have h1 : (a.1 - b.1) ^ 2 = 0 ∧ (a.2 - b.2) ^ 2 = 0 := by
      constructor <;> nlinarith [sq_nonneg (a.1 - b.1), sq_nonneg (a.2 - b.2)]
    have e1 : a.1 = b.1 := by nlinarith [h1.1]
    have e2 : a.2 = b.2 := by nlinarith [h1.2]
    exact Prod.ext e1 e2
  · rintro rfl
    simp


/-! ## Reduction helpers and concrete instances -/

theorem except_bind_ok {α β : Type} (a : α) (f : α → Except NxError β) :
    (Except.ok a : Except NxError α).bind f = f a := rfl

theorem except_bind_error {α β : Type} (e : NxError) (f : α → Except NxError β) :
    (Except.error e : Except NxError α).bind f = Except.error e := rfl

theorem except_map_ok {α β : Type} (f : α → β) (a : α) :
    (Except.ok a : Except NxError α).map f = Except.ok (f a) := rfl

theorem except_map_error {α β : Type} (f : α → β) (e : NxError) :
    (Except.error e : Except NxError α).map f = Except.error e := rfl

/-- Reduction of the Dijkstra engine once lookups and snaps succeed. -/
theorem dijkstra_engine_eq {es : List Edge} {tbl : List (String × Coord)}
    {src dst : String} {sc dc s t : Coord} (tm : ℚ) (mem : ℤ)
    (hsrc : lookupPort tbl src = some sc) (hdst : lookupPort tbl dst = some dc)
    (hsn : snap_to_nearest_node (nodesOf es) sc = some s)
    (hdn : snap_to_nearest_node (nodesOf es) dc = some t) :
    find_shortest_path_dijkstra es tbl src dst tm mem =
      (nx_shortest_path es s t).map (fun p => (p, tm, mem)) := by
  unfold find_shortest_path_dijkstra
  rw [hsrc]
  simp only [Option.elim_some]
  rw [hdst]
  simp only [Option.elim_some]
  rw [hsn]
  simp only [Option.elim_some]
  rw [hdn]
  simp only [Option.elim_some]

/-- Reduction of the A-star engine once lookups and snaps succeed. -/
theorem astar_engine_eq {es : List Edge} {tbl : List (String × Coord)}
    {h : Coord → Coord → ℚ} {src dst : String} {sc dc s t : Coord} (tm : ℚ) (mem : ℤ)
    (hsrc : lookupPort tbl src = some sc) (hdst : lookupPort tbl dst = some dc)
    (hsn : snap_to_nearest_node (nodesOf es) sc = some s)
    (hdn : snap_to_nearest_node (nodesOf es) dc = some t) :
    find_shortest_path_astar es tbl h src dst tm mem =
      (nx_astar_path es h s t).map (fun p => (p, tm, mem)) := by
  unfold find_shortest_path_astar
  rw [hsrc]
  simp only [Option.elim_some]
  rw [hdst]
  simp only [Option.elim_some]
  rw [hsn]
  simp only [Option.elim_some]
  rw [hdn]
  simp only [Option.elim_some]

/-- Reduction of the Bellman-Ford engine once lookups and snaps succeed. -/
theorem bellmanford_engine_eq {es : List Edge} {tbl : List (String × Coord)}
    {src dst : String} {sc dc s t : Coord} (tm : ℚ) (mem : ℤ)
    (hsrc : lookupPort tbl src = some sc) (hdst : lookupPort tbl dst = some dc)
    (hsn : snap_to_nearest_node (nodesOf es) sc = some s)
    (hdn : snap_to_nearest_node (nodesOf es) dc = some t) :
    find_shortest_path_bellmanford es tbl src dst tm mem =
      Except.ok (single_source_bellman_ford_path es s, tm, mem) := by
  unfold find_shortest_path_bellmanford
  rw [hsrc]
  simp only [Option.elim_some]
  rw [hdst]
  simp only [Option.elim_some]
  rw [hsn]
  simp only [Option.elim_some]
  rw [hdn]
  simp only [Option.elim_some]

/-- Example graph: a heavy direct edge and a cheap two-edge detour through
a geometrically far-away node, all pairwise distances to the target
rational. -/
def exS : Coord := (72, 19)

def exM : Coord := (80, 90)

def exT : Coord := (80, 13)

def exEdges : List Edge := [(exS, exT, 10), (exS, exM, 1), (exM, exT, 1)]

/-- The Euclidean point distance to exT from each node of exEdges happens
to be rational: 10 from exS (a 6-8-10 triangle), 77 from exM (vertically
above exT) and 0 from exT itself.  hEx is the Euclidean heuristic of the
code evaluated on this graph (proved so in the counterexample below). -/
def hEx : Coord → Coord → ℚ := fun u _ => if u = exS then 10 else if u = exM then 77 else 0

/-- Example chain graph near the Mumbai and Chennai coordinates. -/
def chainEdges : List Edge := [((72, 19), (76, 16), 1), ((76, 16), (80, 13), 1)]

/-- Example graph with the Mumbai-side and Chennai-side nodes in separate
connected components. -/
def discEdges : List Edge := [((72, 19), (76, 16), 1), ((80, 13), (81, 14), 1)]

/-! ## Claim C1: the comparator verdict -/

/-- Claim C1, counterexample: the claim states that the verdict picks the
algorithm with the smallest elapsed time, ties resolved by the priority
order Dijkstra, A-star, Bellman-Ford (modelled by fastestSpec).  At the
elapsed times (1, 1, 2) the minimum is attained by Dijkstra and A-star, so
the claimed selection is Dijkstra, but the code selects Bellman-Ford, whose
elapsed time 2 is not even minimal. -/
theorem comparator_tie_counterexample :
    best_algorithm 1 1 2 = Alg.bellmanford ∧
    fastestSpec 1 1 2 = Alg.dijkstra ∧
    best_algorithm 1 1 2 ≠ fastestSpec 1 1 2 ∧
    ¬ ((2 : ℚ) ≤ 1) := by
  refine ⟨?_, ?_, ?_, ?_⟩ <;> decide

/-- Claim C1, amended: when the minimum elapsed time is attained by exactly
one algorithm the verdict names that algorithm; whenever the minimum is
attained by two or more algorithms the verdict is Bellman-Ford, regardless
of the claimed priority order. -/
theorem comparator_verdict (dt a2 b2 : ℚ) :
    ((dt < a2 ∧ dt < b2) → best_algorithm dt a2 b2 = Alg.dijkstra) ∧
    ((a2 < dt ∧ a2 < b2) → best_algorithm dt a2 b2 = Alg.astar) ∧
    ((b2 < dt ∧ b2 < a2) → best_algorithm dt a2 b2 = Alg.bellmanford) ∧
    (((dt = a2 ∧ dt ≤ b2) ∨ (dt = b2 ∧ dt ≤ a2) ∨ (a2 = b2 ∧ a2 ≤ dt)) →
      best_algorithm dt a2 b2 = Alg.bellmanford) := by
  refine ⟨?_, ?_, ?_, ?_⟩
  · rintro ⟨h1, h2⟩
    simp [best_algorithm, h1, h2]
  · rintro ⟨h1, h2⟩
    have hc1 : ¬ (dt < a2 ∧ dt < b2) := by
      rintro ⟨hh, _⟩
      linarith
    simp [best_algorithm, hc1, h1, h2]
  · rintro ⟨h1, h2⟩
    have hc1 : ¬ (dt < a2 ∧ dt < b2) := by
      rintro ⟨_, hh⟩
      linarith
    have hc2 : ¬ (a2 < dt ∧ a2 < b2) := by
      rintro ⟨_, hh⟩
      linarith
    simp [best_algorithm, hc1, hc2]
  · rintro (⟨he, hle⟩ | ⟨he, hle⟩ | ⟨he, hle⟩)
    · have hc1 : ¬ (dt < a2 ∧ dt < b2) := by
        rintro ⟨hh, _⟩
        linarith
      have hc2 : ¬ (a2 < dt ∧ a2 < b2) := by
        rintro ⟨hh, _⟩
        linarith
      simp [best_algorithm, hc1, hc2]
    · have hc1 : ¬ (dt < a2 ∧ dt < b2) := by
        rintro ⟨_, hh⟩
        linarith
      have hc2 : ¬ (a2 < dt ∧ a2 < b2) := by
        rintro ⟨hh, _⟩
        linarith
      simp [best_algorithm, hc1, hc2]
    · have hc1 : ¬ (dt < a2 ∧ dt < b2) := by
        rintro ⟨hh, _⟩
        linarith
      have hc2 : ¬ (a2 < dt ∧ a2 < b2) := by
        rintro ⟨_, hh⟩
        linarith
      simp [best_algorithm, hc1, hc2]

/-- Claim C1, witness for the amended theorem at concrete elapsed times. -/
theorem comparator_verdict_witness :
    best_algorithm 1 2 3 = Alg.dijkstra ∧ best_algorithm 2 2 3 = Alg.bellmanford :=
  ⟨(comparator_verdict 1 2 3).1 (by norm_num),
   (comparator_verdict 2 2 3).2.2.2 (Or.inl ⟨rfl, by norm_num⟩)⟩

/-! ## Claim C5: idempotence of the resolver -/

/-- Claim C5: snapping is idempotent — if snap resolves coordinate v to the
vertex r, then snapping the coordinate of r again returns r itself. -/
theorem snap_idempotent (nodes : List Coord) (v r : Coord)
    (h : snap_to_nearest_node nodes v = some r) :
    snap_to_nearest_node nodes r = some r := by
  have hmem : r ∈ nodes := minByFirst_mem h
  cases hn : snap_to_nearest_node nodes r with
  | none =>
    rw [show snap_to_nearest_node nodes r =
      minByFirst (fun x => sqDist x r) nodes from rfl] at hn
    rw [minByFirst_eq_none_iff] at hn
    rw [hn] at hmem
    exact absurd hmem (List.not_mem_nil r)
  | some r2 =>
    have hn2 : minByFirst (fun x => sqDist x r) nodes = some r2 := hn
    have hle := minByFirst_le hn2 r hmem
    rw [sqDist_self] at hle
    have h1 : sqDist r2 r = 0 := le_antisymm hle (sqDist_nonneg r2 r)
    have h2 : r2 = r := sqDist_eq_zero_iff.mp h1
    rw [h2]

unseal Rat.add Rat.sub Rat.mul in
/-- Claim C5, witness: snapping (1, 1) on a two-node graph returns (0, 0),
and snapping the result again returns the same vertex. -/
theorem snap_idempotent_witness :
    snap_to_nearest_node [((0 : ℚ), (0 : ℚ)), (3, 4)] (0, 0) = some (0, 0) :=
  snap_idempotent [((0 : ℚ), (0 : ℚ)), (3, 4)] (1, 1) (0, 0) (by decide)

/-! ## Claim C7: the nearest-vertex resolver -/

/-- Claim C7: the resolver fails exactly on a graph with zero vertices
(Python min raises there, modelled as none), and on a nonempty graph it
returns a graph vertex minimising the Euclidean distance to the query
coordinate, with ties broken in favour of the first such vertex in
enumeration order (everything before the result is strictly farther). -/
theorem resolver_spec (nodes : List Coord) (coord : Coord) :
    (snap_to_nearest_node nodes coord = none ↔ nodes = []) ∧
    ∀ r, snap_to_nearest_node nodes coord = some r →
      r ∈ nodes ∧
      (∀ y ∈ nodes, Real.sqrt ((sqDist r coord : ℚ) : ℝ) ≤
        Real.sqrt ((sqDist y coord : ℚ) : ℝ)) ∧
      ∃ pre post, nodes = pre ++ r :: post ∧
        ∀ y ∈ pre, Real.sqrt ((sqDist r coord : ℚ) : ℝ) <
          Real.sqrt ((sqDist y coord : ℚ) : ℝ) := by
  constructor
  · exact minByFirst_eq_none_iff
  · intro r h
    have hm : minByFirst (fun x => sqDist x coord) nodes = some r := h
    refine ⟨minByFirst_mem hm, ?_, ?_⟩
    · intro y hy
      have hle := minByFirst_le hm y hy
      exact Real.sqrt_le_sqrt (by exact_mod_cast hle)
    · obtain ⟨pre, post, hsplit, hpre⟩ := minByFirst_first hm
      refine ⟨pre, post, hsplit, ?_⟩
      intro y hy
      have hlt := hpre y hy
      have h0 : (0 : ℝ) ≤ ((sqDist r coord : ℚ) : ℝ) := by
        exact_mod_cast sqDist_nonneg r coord
      exact Real.sqrt_lt_sqrt h0 (by exact_mod_cast hlt)

/-- Claim C7, witness: the resolver applied to the empty graph fails. -/
theorem resolver_spec_witness :
    snap_to_nearest_node ([] : List Coord) (0, 0) = none ↔ ([] : List Coord) = [] :=
  (resolver_spec [] (0, 0)).1

/-! ## Claim C9: no self-loops from the ingestor -/

unseal Rat.add Rat.sub Rat.mul in
/-- Claim C9, counterexample: a polyline with a repeated consecutive
coordinate makes the ingestor insert a self-loop, refuting the claim that
no collection of polylines ever produces one. -/
theorem ingestor_selfloop_counterexample :
    geojson_to_graph [[((0 : ℚ), (0 : ℚ)), (0, 0)]] = [((0, 0), (0, 0), 0)] ∧
    ∃ e ∈ geojson_to_graph [[((0 : ℚ), (0 : ℚ)), (0, 0)]], e.1 = e.2.1 := by
  constructor
  · decide
  · exact ⟨((0, 0), (0, 0), 0), by decide, rfl⟩

theorem mem_foldl_append {α β : Type} (g : β → List α) :
    ∀ (L : List β) (acc : List α) (x : α),
      x ∈ L.foldl (fun a b => a ++ g b) acc ↔ x ∈ acc ∨ ∃ l ∈ L, x ∈ g l
  | [], acc, x => by simp
  | b :: L, acc, x => by
    rw [List.foldl_cons, mem_foldl_append g L (acc ++ g b) x]
    simp only [List.mem_append, List.exists_mem_cons_iff]
    tauto

theorem zip_tail_chain {l : List Coord} (h : l.Chain' (fun a b => a ≠ b)) :
    ∀ pr ∈ l.zip l.tail, pr.1 ≠ pr.2 := by
  induction l with
  | nil => simp
  | cons a t ih =>
    cases t with
    | nil => simp
    | cons b t2 =>
      intro pr hpr
      rcases List.mem_cons.mp hpr with hh | hpr2
      · rw [hh]
        exact (List.chain'_cons.mp h).1
      · exact ih (List.chain'_cons.mp h).2 pr hpr2

/-- Claim C9, amended: the graph built by the ingestor contains no
self-loop provided no polyline carries two equal consecutive coordinates;
a repeated consecutive coordinate (see the counterexample) is the only way
a self-loop arises. -/
theorem ingestor_no_selfloop (polys : List (List Coord))
    (hdistinct : ∀ l ∈ polys, l.Chain' (fun a b => a ≠ b)) :
    ∀ e ∈ geojson_to_graph polys, e.1 ≠ e.2.1 := by
  intro e he
  unfold geojson_to_graph at he
  rw [mem_foldl_append] at he
  rcases he with he | ⟨l, hl, he⟩
  · exact absurd he (List.not_mem_nil e)
  · rw [List.mem_map] at he
    obtain ⟨pr, hpr, hpe⟩ := he
    have hne := zip_tail_chain (hdistinct l hl) pr hpr
    rw [← hpe]
    exact hne

unseal Rat.add Rat.sub Rat.mul in
/-- Claim C9, witness: the single edge built from a two-point polyline with
distinct endpoints is not a self-loop. -/
theorem ingestor_no_selfloop_witness :
    ((((0 : ℚ), (0 : ℚ)), ((1 : ℚ), (0 : ℚ)), (1 : ℚ)) : Edge).1 ≠
      ((((0 : ℚ), (0 : ℚ)), ((1 : ℚ), (0 : ℚ)), (1 : ℚ)) : Edge).2.1 :=
  ingestor_no_selfloop [[((0 : ℚ), (0 : ℚ)), (1, 0)]]
    (by
      intro l hl
      rw [List.mem_singleton] at hl
      subst hl
      exact List.chain'_cons.mpr ⟨by decide, List.chain'_singleton _⟩)
    ((((0 : ℚ), (0 : ℚ)), ((1 : ℚ), (0 : ℚ)), (1 : ℚ)) : Edge) (by decide)

/-! ## Claim C10: the analysis view before any successful query -/

/-- Claim C10: at module load the global performance_metrics is unbound, so
requesting the analysis view evaluates an unassigned name and fails with a
NameError instead of returning the no-data message; GET requests and
invalid-name POST requests leave the global unbound, and once the global is
bound the guard never returns the no-data message either (the stored dict
has six keys and is always truthy). -/
theorem analysis_unbound_global :
    analysis initialState = Except.error NxError.nameError ∧
    analysis initialState ≠ Except.ok AnalysisResponse.noDataMsg ∧
    (∀ es tbl h fs fd dt a2 b2 dm am bm,
      index es tbl h initialState Method.GET fs fd dt a2 b2 dm am bm =
        Except.ok (⟨none, none, none, none⟩, initialState)) ∧
    (∀ es tbl h src dst dt a2 b2 dm am bm,
      ¬ ((lookupPort tbl src).isSome ∧ (lookupPort tbl dst).isSome) →
      index es tbl h initialState Method.POST (some src) (some dst) dt a2 b2 dm am bm =
        Except.ok (⟨some MapHtml.invalidMsg, none, none, none⟩, initialState)) ∧
    (∀ m, analysis ⟨some m⟩ ≠ Except.ok AnalysisResponse.noDataMsg) := by
  refine ⟨rfl, by simp [analysis, initialState], ?_, ?_, ?_⟩
  · intro es tbl h fs fd dt a2 b2 dm am bm
    rfl
  · intro es tbl h src dst dt a2 b2 dm am bm hbad
    simp only [index]
    rw [if_neg hbad]
  · intro m
    simp [analysis, metricsFalsy]

/-- Claim C10, witness: the analysis view errors at the initial state. -/
theorem analysis_unbound_global_witness :
    analysis initialState = Except.error NxError.nameError :=
  analysis_unbound_global.1

/-! ## Claim C6: unknown location names -/

/-- Claim C6: a POST whose source or destination name is not an exact key
of the Location Registry (including a missing form field, since None is
not in the dict) produces the invalid-input response and never raises;
the lookup is an exact, case-and-whitespace-sensitive string match, as
witnessed by the trailing-space Istanbul key. -/
theorem unknown_name_invalid_input (es : List Edge) (h : Coord → Coord → ℚ)
    (st : AppState) (formSource formDestination : Option String)
    (dt a2 b2 : ℚ) (dm am bm : ℤ)
    (hbad : ∀ src dst, formSource = some src → formDestination = some dst →
      ¬ ((lookupPort ports src).isSome ∧ (lookupPort ports dst).isSome)) :
    index es ports h st Method.POST formSource formDestination dt a2 b2 dm am bm =
      Except.ok (⟨some MapHtml.invalidMsg, none, none, none⟩, st) ∧
    lookupPort ports "Istanbul" = none ∧
    lookupPort ports "Istanbul " = some (29.10000038, 41.09999084) := by
  refine ⟨?_, ?_, ?_⟩
  · cases formSource with
    | none => rfl
    | some src =>
      cases formDestination with
      | none => rfl
      | some dst =>
        simp only [index]
        rw [if_neg (hbad src dst rfl rfl)]
  · rfl
  · rfl

/-- Claim C6, witness: the unknown name Atlantis yields the invalid-input
response on a concrete graph and state. -/
theorem unknown_name_invalid_input_witness :
    index chainEdges ports hEx initialState Method.POST
        (some "Atlantis") (some "Chennai") 1 2 3 4 5 6 =
      Except.ok (⟨some MapHtml.invalidMsg, none, none, none⟩, initialState) ∧
    lookupPort ports "Istanbul" = none ∧
    lookupPort ports "Istanbul " = some (29.10000038, 41.09999084) :=
  unknown_name_invalid_input chainEdges hEx initialState
    (some "Atlantis") (some "Chennai") 1 2 3 4 5 6
    (by
      intro src dst h1 h2
      rw [Option.some.inj h1.symm, Option.some.inj h2.symm]
      decide)

/-! ## Claim C2: what the Bellman-Ford engine returns -/

unseal Rat.add Rat.sub Rat.mul Rat.ofScientific in
/-- Claim C2: on a concrete Mumbai-to-Chennai query over a three-node chain
graph, the Dijkstra engine does return a vertex sequence from the snapped
source (72, 19) to the snapped destination (80, 13), but the Bellman-Ford
engine returns the whole source-rooted path dictionary (one entry per
reachable node) instead of the destination-specific path: it never extracts
the destination entry, so its result is not an ordered sequence of vertices
ending at the snapped destination. -/
theorem bf_engine_returns_dict :
    snap_to_nearest_node (nodesOf chainEdges) (72.40000916, 18.99999046) =
      some (72, 19) ∧
    snap_to_nearest_node (nodesOf chainEdges) (80.28001071, 13.08998712) =
      some (80, 13) ∧
    find_shortest_path_dijkstra chainEdges ports "Mumbai" "Chennai" 1 50 =
      Except.ok ([(72, 19), (76, 16), (80, 13)], 1, 50) ∧
    find_shortest_path_bellmanford chainEdges ports "Mumbai" "Chennai" 1 50 =
      Except.ok ([((72, 19), [(72, 19)]),
                  ((76, 16), [(72, 19), (76, 16)]),
                  ((80, 13), [(72, 19), (76, 16), (80, 13)])], 1, 50) := by
  refine ⟨by decide, by decide, by rfl, by rfl⟩

/-! ## Claim C3: path-cost agreement of the three engines -/

unseal Rat.add Rat.sub Rat.mul in
/-- Claim C3, counterexample: on the triangle graph exEdges (non-negative
weights) with source exS and destination exT, the code-given heuristic (the
Euclidean point distance, which on these nodes equals hEx: 10, 0 and 77,
each the square root of the squared distance) is not admissible, and
networkx astar_path returns the direct edge of cost 10 while Dijkstra
returns the two-hop path of cost 2: the returned path costs differ, and
exactly (not merely beyond floating-point tolerance). -/
theorem astar_cost_counterexample :
    NonnegWeights exEdges ∧
    nodesOf exEdges = [exS, exT, exM] ∧
    ((hEx exS exT : ℚ) : ℝ) = Real.sqrt ((sqDist exS exT : ℚ) : ℝ) ∧
    ((hEx exT exT : ℚ) : ℝ) = Real.sqrt ((sqDist exT exT : ℚ) : ℝ) ∧
    ((hEx exM exT : ℚ) : ℝ) = Real.sqrt ((sqDist exM exT : ℚ) : ℝ) ∧
    nx_shortest_path exEdges exS exT = Except.ok [exS, exM, exT] ∧
    pathWeight exEdges [exS, exM, exT] = some 2 ∧
    nx_astar_path exEdges hEx exS exT = Except.ok [exS, exT] ∧
    pathWeight exEdges [exS, exT] = some 10 ∧
    (2 : ℚ) ≠ 10 := by
  refine ⟨by unfold NonnegWeights; decide, by rfl, ?_, ?_, ?_, by rfl, by decide, by rfl, by decide, by decide⟩
  · rw [show hEx exS exT = 10 by decide, show sqDist exS exT = 100 by decide]
    push_cast
    rw [show (100 : ℝ) = (10 : ℝ) ^ 2 by norm_num]
    exact (Real.sqrt_sq (by norm_num)).symm
  · rw [show hEx exT exT = 0 by decide, show sqDist exT exT = 0 by decide]
    push_cast
    exact Real.sqrt_zero.symm
  · rw [show hEx exM exT = 77 by decide, show sqDist exM exT = 5929 by decide]
    push_cast
    rw [show (5929 : ℝ) = (77 : ℝ) ^ 2 by norm_num]
    exact (Real.sqrt_sq (by norm_num)).symm

/-- Claim C3, amended: on a graph with non-negative weights whose snapped
endpoints are nodes and are joined by some walk, the Dijkstra engine path
and the Bellman-Ford destination entry exist and have the same cost, the
minimum over all walks; the A-star engine is excluded, since with the
code's inadmissible Euclidean heuristic its path cost can be strictly
larger (see the counterexample). -/
theorem dijkstra_bellmanford_cost_eq (es : List Edge) (s t : Coord)
    (hnn : NonnegWeights es) (hs : s ∈ nodesOf es) (ht : t ∈ nodesOf es)
    (hreach : ∃ q c, WalkFrom es s t q c) :
    ∃ p pb c, nx_shortest_path es s t = Except.ok p ∧
      (t, pb) ∈ single_source_bellman_ford_path es s ∧
      pathWeight es p = some c ∧ pathWeight es pb = some c ∧
      ∀ q cq, WalkFrom es s t q cq → c ≤ cq := by
  obtain ⟨q, cq, hw⟩ := hreach
  obtain ⟨hsound, hopt, hcomp⟩ := dijkstraMap_correct es s hnn hs
  obtain ⟨hbsound, hbopt, hbcomp⟩ := bellmanFordMap_correct es s hnn hs
  cases hdt : dijkstraMap es s t with
  | none => exact absurd hdt (hcomp t q cq hw)
  | some cp =>
    cases hbt : bellmanFordMap es s t with
    | none => exact absurd hbt (hbcomp t q cq hw)
    | some cpb =>
      have hwD : WalkFrom es s t cp.2 cp.1 := hsound t cp hdt
      have hwB : WalkFrom es s t cpb.2 cpb.1 := hbsound t cpb hbt
      have hceq : cpb.1 = cp.1 :=
        le_antisymm (hbopt t cpb hbt cp.2 cp.1 hwD) (hopt t cp hdt cpb.2 cpb.1 hwB)
      refine ⟨cp.2, cpb.2, cp.1, ?_, ?_, hwD.pathWeight_eq, ?_, ?_⟩
      · unfold nx_shortest_path
        rw [if_pos hs, if_pos ht, hdt]
      · exact mem_bf_paths.mpr ⟨ht, cpb.1, by rw [hbt]⟩
      · rw [hwB.pathWeight_eq, hceq]
      · intro q2 cq2 hw2
        exact hopt t cp hdt q2 cq2 hw2

unseal Rat.add Rat.sub Rat.mul in
/-- Claim C3, witness: on the chain graph the two engines agree at the
minimum cost 2. -/
theorem dijkstra_bellmanford_cost_eq_witness :
    ∃ p pb c, nx_shortest_path chainEdges (72, 19) (80, 13) = Except.ok p ∧
      ((80, 13), pb) ∈ single_source_bellman_ford_path chainEdges (72, 19) ∧
      pathWeight chainEdges p = some c ∧ pathWeight chainEdges pb = some c ∧
      ∀ q cq, WalkFrom chainEdges (72, 19) (80, 13) q cq → c ≤ cq :=
  dijkstra_bellmanford_cost_eq chainEdges (72, 19) (80, 13)
    (by unfold NonnegWeights; decide) (by decide) (by decide)
    ⟨[(72, 19), (76, 16), (80, 13)], 2,
      walkFrom_of_pathWeight (by rfl) (by rfl) (by decide)⟩

/-! ## Claim C4: which path the map renders -/

unseal Rat.add Rat.sub Rat.mul Rat.ofScientific in
/-- Claim C4, counterexample: a successful Mumbai-to-Chennai query over
exEdges whose measured times are (3, 1, 5) names A-star as fastest in the
verdict, yet the polyline handed to the rendering adapter is the
coordinate-swapped Dijkstra path [exS, exM, exT], not the A-star path
[exS, exT] of the winning algorithm. -/
theorem rendered_path_counterexample :
    index exEdges ports hEx initialState Method.POST
        (some "Mumbai") (some "Chennai") 3 1 5 7 8 9 =
      Except.ok
        (⟨some (MapHtml.rendered ⟨(18.99999046, 72.40000916),
            (13.08998712, 80.28001071), [(19, 72), (90, 80), (13, 80)]⟩),
          some Alg.astar, some (3, 1, 5), some (7, 8, 9)⟩,
        ⟨some ⟨3, 1, 5, 7, 8, 9⟩⟩) ∧
    find_shortest_path_astar exEdges ports hEx "Mumbai" "Chennai" 1 8 =
      Except.ok ([exS, exT], 1, 8) ∧
    [(19, 72), (90, 80), (13, 80)] =
      ([exS, exM, exT].map (fun x : Coord => (x.2, x.1))) ∧
    [exS, exM, exT] ≠ [exS, exT] := by
  refine ⟨by rfl, by rfl, by rfl, by decide⟩

/-- Claim C4, amended: whenever a POST succeeds and renders a map, the
polyline exposed to the rendering adapter is always the coordinate-swapped
path of the Dijkstra engine (the code plots dijkstra_path unconditionally,
"for simplicity"), regardless of which algorithm the verdict names as
fastest. -/
theorem rendered_path_is_dijkstra (es : List Edge) (tbl : List (String × Coord))
    (h : Coord → Coord → ℚ) (st : AppState) (src dst : String)
    (dt at2 bt : ℚ) (dm am bm : ℤ) (resp : IndexResponse) (st2 : AppState) (m : RenderedMap)
    (hok : index es tbl h st Method.POST (some src) (some dst) dt at2 bt dm am bm =
      Except.ok (resp, st2))
    (hm : resp.map_html = some (MapHtml.rendered m)) :
    ∃ dp dtm dmm,
      find_shortest_path_dijkstra es tbl src dst dt dm = Except.ok (dp, dtm, dmm) ∧
      m.polyline = dp.map (fun x => (x.2, x.1)) := by
  by_cases hcond : (lookupPort tbl src).isSome ∧ (lookupPort tbl dst).isSome
  case neg =>
    simp only [index, if_neg hcond] at hok
    have hresp : resp = ⟨some MapHtml.invalidMsg, none, none, none⟩ :=
      (congrArg Prod.fst (Except.ok.inj hok)).symm
    rw [hresp] at hm
    simp at hm
  case pos =>
    obtain ⟨hsrcs, hdsts⟩ := hcond
    obtain ⟨sc, hsc⟩ := Option.isSome_iff_exists.mp hsrcs
    obtain ⟨dc, hdc⟩ := Option.isSome_iff_exists.mp hdsts
    simp only [index, if_pos (And.intro hsrcs hdsts)] at hok
    cases hD : find_shortest_path_dijkstra es tbl src dst dt dm with
    | error e =>
      rw [hD, except_bind_error] at hok
      exact Except.noConfusion hok
    | ok dres =>
      rw [hD, except_bind_ok] at hok
      cases hA : find_shortest_path_astar es tbl h src dst at2 am with
      | error e =>
        rw [hA, except_bind_error] at hok
        exact Except.noConfusion hok
      | ok ares =>
        rw [hA, except_bind_ok] at hok
        cases hB : find_shortest_path_bellmanford es tbl src dst bt bm with
        | error e =>
          rw [hB, except_bind_error] at hok
          exact Except.noConfusion hok
        | ok bres =>
          rw [hB, except_bind_ok] at hok
          unfold plot_route at hok
          rw [hsc] at hok
          simp only [Option.elim_some] at hok
          rw [hdc] at hok
          simp only [Option.elim_some] at hok
          rw [except_bind_ok] at hok
          have hresp : resp = ⟨some (MapHtml.rendered
              ⟨(sc.2, sc.1), (dc.2, dc.1), dres.1.map (fun x => (x.2, x.1))⟩),
              some (best_algorithm dt at2 bt), some (dt, at2, bt), some (dm, am, bm)⟩ :=
            (congrArg Prod.fst (Except.ok.inj hok)).symm
          rw [hresp] at hm
          have h2 := Option.some.inj hm
          injection h2 with h3
          exact ⟨dres.1, dres.2.1, dres.2.2, rfl,
            congrArg RenderedMap.polyline h3.symm⟩

unseal Rat.add Rat.sub Rat.mul Rat.ofScientific in
/-- Claim C4, witness: the amended statement instantiated at the concrete
query of the counterexample. -/
theorem rendered_path_is_dijkstra_witness :
    ∃ dp dtm dmm,
      find_shortest_path_dijkstra exEdges ports "Mumbai" "Chennai" 3 7 =
        Except.ok (dp, dtm, dmm) ∧
      (⟨(18.99999046, 72.40000916), (13.08998712, 80.28001071),
        [(19, 72), (90, 80), (13, 80)]⟩ : RenderedMap).polyline =
        dp.map (fun x => (x.2, x.1)) :=
  rendered_path_is_dijkstra exEdges ports hEx initialState "Mumbai" "Chennai"
    3 1 5 7 8 9
    ⟨some (MapHtml.rendered ⟨(18.99999046, 72.40000916),
        (13.08998712, 80.28001071), [(19, 72), (90, 80), (13, 80)]⟩),
      some Alg.astar, some (3, 1, 5), some (7, 8, 9)⟩
    ⟨some ⟨3, 1, 5, 7, 8, 9⟩⟩
    ⟨(18.99999046, 72.40000916), (13.08998712, 80.28001071),
      [(19, 72), (90, 80), (13, 80)]⟩
    (by rfl) (by rfl)

/-! ## Claim C8: unreachable destination -/

unseal Rat.add Rat.sub Rat.mul Rat.ofScientific in
/-- Claim C8, counterexample: on the two-component graph discEdges the
snapped Chennai destination (80, 13) is unreachable from the snapped
Mumbai source (72, 19).  The Dijkstra engine raises NetworkXNoPath and,
since index has no try/except, the exception aborts the whole request —
so the A-star and Bellman-Ford engines never run at all (a failure in one
engine does abort the other two), there is no tagged per-query outcome,
and the Bellman-Ford engine, run by itself, does not report NoPath: it
succeeds with a dictionary that simply lacks the destination. -/
theorem nopath_aborts_counterexample :
    index discEdges ports hEx initialState Method.POST
        (some "Mumbai") (some "Chennai") 1 2 3 4 5 6 =
      Except.error NxError.noPath ∧
    find_shortest_path_astar discEdges ports hEx "Mumbai" "Chennai" 2 5 =
      Except.error NxError.noPath ∧
    find_shortest_path_bellmanford discEdges ports "Mumbai" "Chennai" 3 6 =
      Except.ok ([((72, 19), [(72, 19)]), ((76, 16), [(72, 19), (76, 16)])], 3, 6) ∧
    (∀ p, ((80, 13), p) ∉ single_source_bellman_ford_path discEdges (72, 19)) := by
  refine ⟨by rfl, by rfl, by rfl, ?_⟩
  intro p hp
  rw [show single_source_bellman_ford_path discEdges (72, 19) =
      [((72, 19), [(72, 19)]), ((76, 16), [(72, 19), (76, 16)])] by rfl] at hp
  simp only [List.mem_cons, List.not_mem_nil, or_false] at hp
  rcases hp with hp | hp
  · exact absurd (congrArg Prod.fst hp)
      (by decide : ¬((80 : ℚ), (13 : ℚ)) = ((72 : ℚ), (19 : ℚ)))
  · exact absurd (congrArg Prod.fst hp)
      (by decide : ¬((80 : ℚ), (13 : ℚ)) = ((76 : ℚ), (16 : ℚ)))

/-- Claim C8, amended: when the snapped destination is unreachable from the
snapped source (no walk joins them), the Dijkstra engine terminates with
the NetworkXNoPath exception, the whole index request aborts with that
same exception before the other two engines run, and the Bellman-Ford
path dictionary carries no entry for the destination; no engine delivers a
tagged NoPath outcome to the caller. -/
theorem unreachable_dest_aborts (es : List Edge) (h : Coord → Coord → ℚ)
    (st : AppState) (tbl : List (String × Coord)) (src dst : String)
    (sc dc s t : Coord) (dt at2 bt : ℚ) (dm am bm : ℤ)
    (hnn : NonnegWeights es)
    (hsc : lookupPort tbl src = some sc) (hdc : lookupPort tbl dst = some dc)
    (hsn : snap_to_nearest_node (nodesOf es) sc = some s)
    (hdn : snap_to_nearest_node (nodesOf es) dc = some t)
    (hs : s ∈ nodesOf es) (ht : t ∈ nodesOf es)
    (hnr : ∀ q c, ¬ WalkFrom es s t q c) :
    find_shortest_path_dijkstra es tbl src dst dt dm = Except.error NxError.noPath ∧
    index es tbl h st Method.POST (some src) (some dst) dt at2 bt dm am bm =
      Except.error NxError.noPath ∧
    ∀ p, (t, p) ∉ single_source_bellman_ford_path es s := by
  obtain ⟨hsound, _, _⟩ := dijkstraMap_correct es s hnn hs
  have hnone : dijkstraMap es s t = none := by
    cases hdt : dijkstraMap es s t with
    | none => rfl
    | some cp => exact absurd (hsound t cp hdt) (hnr cp.2 cp.1)
  have hnx : nx_shortest_path es s t = Except.error NxError.noPath := by
    unfold nx_shortest_path
    rw [if_pos hs, if_pos ht, hnone]
  refine ⟨?_, ?_, ?_⟩
  · rw [dijkstra_engine_eq dt dm hsc hdc hsn hdn, hnx]
    rfl
  · have hcond : (lookupPort tbl src).isSome ∧ (lookupPort tbl dst).isSome := by
      rw [hsc, hdc]
      exact ⟨rfl, rfl⟩
    simp only [index, if_pos hcond]
    rw [dijkstra_engine_eq dt dm hsc hdc hsn hdn, hnx]
    rfl
  · intro p hp
    obtain ⟨_, c, hbf⟩ := mem_bf_paths.mp hp
    obtain ⟨hbsound, _, _⟩ := bellmanFordMap_correct es s hnn hs
    exact absurd (hbsound t (c, p) hbf) (hnr p c)

unseal Rat.add Rat.sub Rat.mul Rat.ofScientific in
/-- Claim C8, witness: the amended statement at the concrete disconnected
query; unreachability is discharged through the completeness part of the
verified Dijkstra labelling, whose evaluation at the destination is none. -/
theorem unreachable_dest_aborts_witness :
    find_shortest_path_dijkstra discEdges ports "Mumbai" "Chennai" 1 4 =
      Except.error NxError.noPath ∧
    index discEdges ports hEx initialState Method.POST
        (some "Mumbai") (some "Chennai") 1 2 3 4 5 6 =
      Except.error NxError.noPath ∧
    ∀ p, ((80, 13), p) ∉ single_source_bellman_ford_path discEdges (72, 19) :=
  unreachable_dest_aborts discEdges hEx initialState ports "Mumbai" "Chennai"
    (72.40000916, 18.99999046) (80.28001071, 13.08998712) (72, 19) (80, 13)
    1 2 3 4 5 6
    (by unfold NonnegWeights; decide)
    (by rfl) (by rfl) (by decide) (by decide) (by decide) (by decide)
    (fun q c hw =>
      ((dijkstraMap_correct discEdges (72, 19)
          (by unfold NonnegWeights; decide) (by decide)).2.2
        (80, 13) q c hw) (by decide))

end MarineRoute
